import Mathlib

/-
Verification of the ntfy-api client library against its specification.

The Python sources are embedded shallowly:
* Python `str` values are modelled as `List Char` (`PyStr`);
* fallible code returns `Except`;
* dictionaries built from unique keys are modelled as association lists
  in insertion order;
* each Lean definition mirrors one Python function or method and keeps
  its name where possible.
-/

namespace NtfyApi

/-- Python strings are sequences of characters. -/
abbrev PyStr := List Char

/-- Shorthand turning a Lean string literal into its character list. -/
def pys (s : String) : PyStr := s.data

instance {ε α : Type} [DecidableEq ε] [DecidableEq α] : DecidableEq (Except ε α) := fun x y =>
  match x, y with
  | .ok a, .ok b => decidable_of_iff (a = b) (by simp)
  | .error a, .error b => decidable_of_iff (a = b) (by simp)
  | .ok _, .error _ => isFalse (by simp)
  | .error _, .ok _ => isFalse (by simp)

/-- Python truthiness of an optional string: `None` and `""` are falsy. -/
def optTruthy : Option PyStr → Bool
  | none => false
  | some s => !s.isEmpty

/-- Python `str.replace(c, rep)` for a single-character pattern:
every occurrence of `c` is replaced by `rep` (occurrences cannot
overlap for a one-character pattern). -/
def pyReplaceChar (c : Char) (rep : PyStr) : PyStr → PyStr
  | [] => []
  | x :: xs => (if x = c then rep else [x]) ++ pyReplaceChar c rep xs

/-- Decimal rendering of a Python integer (`str(value)`). -/
def intToStr (i : Int) : PyStr := (toString i).data

/-! ## Base64 (`base64.b64encode`, RFC 4648 standard alphabet) -/

def b64alphabet : PyStr :=
  (pys "ABCDEFGHIJKLMNOPQRSTUVWXYZabcdefghijklmnopqrstuvwxyz0123456789+/")

def b64char (n : Nat) : Char := b64alphabet.getD n 'A'

/-- Standard base64 encoding of a byte sequence, with padding. -/
def b64encode : List Nat → PyStr
  | [] => []
  | [a] => [b64char (a / 4), b64char (a % 4 * 16), '=', '=']
  | [a, b] => [b64char (a / 4), b64char (a % 4 * 16 + b / 16), b64char (b % 16 * 4), '=']
  | a :: b :: c :: rest =>
      b64char (a / 4) :: b64char (a % 4 * 16 + b / 16) ::
      b64char (b % 16 * 4 + c / 64) :: b64char (c % 64) :: b64encode rest

/-- Python `str.encode("ascii")`: the byte sequence of an ASCII-only
string; raises `UnicodeEncodeError` on any non-ASCII character. -/
def encodeAscii (s : PyStr) : Except Unit (List Nat) :=
  if s.all (fun c => c.toNat < 128) then .ok (s.map Char.toNat) else .error ()

/-! ## `creds.py` — `Credentials` -/

/-- An element of a Python sequence as seen by
`all(isinstance(e, str) for e in ...)`: either a string or some
non-string object. -/
inductive TupElem where
  | str (s : PyStr)
  | nonStr
deriving DecidableEq, Repr

/-- Runtime shapes the `basic` attribute can take: `None`, a `str`, or a
sized sequence (tuple) of elements.  The declared type is
`str | tuple[str, str] | None`, but `get_header` defends against other
shapes, so the model keeps arbitrary tuples representable. -/
inductive BasicVal where
  | none
  | str (s : PyStr)
  | tup (xs : List TupElem)
deriving DecidableEq, Repr

structure Credentials where
  basic : BasicVal := .none
  bearer : Option PyStr := Option.none
deriving DecidableEq, Repr

inductive CredErr where
  | invalidCredentials
  | unicodeEncodeError
deriving DecidableEq, Repr

/-- `Credentials._create_auth_header`. -/
def Credentials.create_auth_header (authType creds : PyStr) : List (PyStr × PyStr) :=
  [(pys "Authorization", authType ++ ' ' :: creds)]

/-- `Credentials.get_header`, mirroring the `if/elif` chain:
`bearer is not None` wins; then `isinstance(basic, str)`; then
`basic and hasattr(basic, "__len__") and len(basic) == 2 and
all(isinstance(e, str) for e in basic)` (matched here by the
two-string-tuple pattern); then `elif basic: raise ValueError`; a falsy
`basic` (including the empty tuple) returns the empty mapping.
`":".join(basic).encode("ascii")` raises `UnicodeEncodeError` for
non-ASCII credentials. -/
def Credentials.get_header (c : Credentials) : Except CredErr (List (PyStr × PyStr)) :=
  match c.bearer with
  | some t => .ok (Credentials.create_auth_header (pys "Bearer") t)
  | Option.none =>
    match c.basic with
    | .str s => .ok (Credentials.create_auth_header (pys "Basic") s)
    | .tup [.str u, .str p] =>
        match encodeAscii (u ++ ':' :: p) with
        | .ok bytes => .ok (Credentials.create_auth_header (pys "Basic") (b64encode bytes))
        | .error _ => .error .unicodeEncodeError
    | .tup xs => if xs.isEmpty then .ok [] else .error .invalidCredentials
    | .none => .ok []

/-- The credential-resolution behaviour as the (amended) specification
words it: Bearer wins; a pre-encoded Basic string is used verbatim; a
pair of two ASCII strings is base64-encoded as `user:pass` (a non-ASCII
component raises the encoding error); a truthy malformed `basic` raises
the invalid-credentials error; a falsy malformed `basic` (the empty
tuple) and an absent `basic` both yield the empty map. -/
def credsSpec (c : Credentials) : Except CredErr (List (PyStr × PyStr)) :=
  match c.bearer with
  | some t => .ok [(pys "Authorization", pys "Bearer " ++ t)]
  | Option.none =>
    match c.basic with
    | .none => .ok []
    | .str s => .ok [(pys "Authorization", pys "Basic " ++ s)]
    | .tup [] => .ok []
    | .tup [.str u, .str p] =>
        if (u ++ ':' :: p).all (fun ch => ch.toNat < 128) then
          .ok [(pys "Authorization", pys "Basic " ++ b64encode ((u ++ ':' :: p).map Char.toNat))]
        else .error .unicodeEncodeError
    | .tup _ => .error .invalidCredentials

/-! ## `actions.py` — the `_Action` serialization engine -/

/-- Values an action field can hold at serialization time: strings,
booleans, and flat string-to-string mappings (the declared field types
are `str`, `bool` and `Mapping[str, str]`). -/
inductive AVal where
  | str (s : PyStr)
  | bool (b : Bool)
  | map (kvs : List (PyStr × PyStr))
deriving DecidableEq, Repr

namespace Action

/-- The escaping pass of `_Action._default_serializer`:
`value.replace("\\", "\\\\")` followed by `value.replace('"', '\\"')`. -/
def escapeStr (s : PyStr) : PyStr :=
  pyReplaceChar '"' ['\\', '"'] (pyReplaceChar '\\' ['\\', '\\'] s)

/-- `set(value).intersection({",", ";", "=", "'", '"', "\\"})` is truthy
iff some character of the (escaped) string lies in that set. -/
def wrapNeeded (s : PyStr) : Bool :=
  s.any (fun ch => ch ∈ ([',', ';', '=', '\'', '"', '\\'] : List Char))

/-- The string branch of `_Action._default_serializer`: escape, then
quote the whole value iff the escaped string needs wrapping. -/
def serializeStr (s : PyStr) : PyStr :=
  let e := escapeStr s
  if wrapNeeded e then '"' :: e ++ ['"'] else e

/-- `_Action._default_serializer`.  Checks run in source order:
strings, then booleans, then (only under a truthy `key`) mappings; any
other combination raises `TypeError`.  In the mapping branch the code
recurses with `_default_serializer(None, v)` on each (string) value,
which is exactly `serializeStr v`. -/
def default_serializer (key : Option PyStr) : AVal → Except Unit PyStr
  | .str s => .ok (serializeStr s)
  | .bool b => .ok (if b then pys "true" else pys "false")
  | .map kvs =>
    match key with
    | some k =>
        if k.isEmpty then .error ()
        else .ok (List.intercalate [',']
          (kvs.map (fun p => k ++ '.' :: p.1 ++ '=' :: serializeStr p.2)))
    | none => .error ()

/-- The body of the `_Action._serialize` generator loop over
`self.__dict__.items()`: skip `None` values; encode the rest with the
default serializer; positional fields (`assign = False`) yield the bare
value, keyed fields yield `k=value`. -/
def segsAux : List (PyStr × Bool × Option AVal) → Except Unit (List PyStr)
  | [] => .ok []
  | (k, assign, v?) :: rest =>
    match v? with
    | none => segsAux rest
    | some v => do
        let value ← default_serializer (some k) v
        let tail ← segsAux rest
        .ok ((if !assign then value else k ++ '=' :: value) :: tail)

end Action

/-- `ViewAction(action="view")`: `label` and `url` are positional
(`Annotated[..., False]`), `clear` is keyed. -/
structure ViewAction where
  label : PyStr
  url : PyStr
  clear : Option Bool := none
deriving DecidableEq, Repr

/-- `ViewAction.__dict__.items()` together with the per-field `assign`
context, in declaration order. -/
def ViewAction.dictItems (a : ViewAction) : List (PyStr × Bool × Option AVal) :=
  [(pys "label", false, some (.str a.label)),
   (pys "url", false, some (.str a.url)),
   (pys "clear", true, a.clear.map .bool)]

/-- `BroadcastAction(action="broadcast")`: `label` and `extras` are
positional, `intent` and `clear` are keyed. -/
structure BroadcastAction where
  label : PyStr
  intent : Option PyStr := none
  extras : Option (List (PyStr × PyStr)) := none
  clear : Option Bool := none
deriving DecidableEq, Repr

def BroadcastAction.dictItems (a : BroadcastAction) : List (PyStr × Bool × Option AVal) :=
  [(pys "label", false, some (.str a.label)),
   (pys "intent", true, a.intent.map .str),
   (pys "extras", false, a.extras.map .map),
   (pys "clear", true, a.clear.map .bool)]

/-- `HTTPAction(action="http")`: `label`, `url` and `headers` are
positional, `method`, `body` and `clear` are keyed. -/
structure HTTPAction where
  label : PyStr
  url : PyStr
  method : Option PyStr := none
  headers : Option (List (PyStr × PyStr)) := none
  body : Option PyStr := none
  clear : Option Bool := none
deriving DecidableEq, Repr

def HTTPAction.dictItems (a : HTTPAction) : List (PyStr × Bool × Option AVal) :=
  [(pys "label", false, some (.str a.label)),
   (pys "url", false, some (.str a.url)),
   (pys "method", true, a.method.map .str),
   (pys "headers", false, a.headers.map .map),
   (pys "body", true, a.body.map .str),
   (pys "clear", true, a.clear.map .bool)]

/-- The closed set of serializable action variants. -/
inductive AnyAction where
  | view (a : ViewAction)
  | broadcast (a : BroadcastAction)
  | http (a : HTTPAction)
deriving DecidableEq, Repr

/-- The `action=` subclass argument stored as `cls._action`. -/
def AnyAction.tag : AnyAction → PyStr
  | .view _ => pys "view"
  | .broadcast _ => pys "broadcast"
  | .http _ => pys "http"

def AnyAction.dictItems : AnyAction → List (PyStr × Bool × Option AVal)
  | .view a => a.dictItems
  | .broadcast a => a.dictItems
  | .http a => a.dictItems

/-- `_Action.serialize`: `",".join(self._serialize())`, the generator
yielding `self._action` first and then the field segments. -/
def AnyAction.serialize (a : AnyAction) : Except Unit PyStr := do
  let segs ← Action.segsAux a.dictItems
  .ok (List.intercalate [','] (a.tag :: segs))

/-! ## `message.py` / `filter.py` — default serializers -/

/-- The `\n` / `\r` / `\f` escaping shared by `_Message._default_serializer`
and `_Filter._serializer`: three successive single-character replaces. -/
def escapeNRF (s : PyStr) : PyStr :=
  pyReplaceChar '\x0c' ['\\', 'f']
    (pyReplaceChar '\r' ['\\', 'r']
      (pyReplaceChar '\n' ['\\', 'n'] s))

/-- Values a `Message` field can hold where the default serializer is
applied: `str`, `bool`, `int` (in source check order; `bool` is tested
before `int` because Python `bool` is an `int` subtype). -/
inductive MVal where
  | str (s : PyStr)
  | bool (b : Bool)
  | int (n : Int)
deriving DecidableEq, Repr

/-- `_Message._default_serializer`.  Total on the modelled value types;
the trailing `raise TypeError` branch is unreachable for them. -/
def Message.default_serializer : MVal → PyStr
  | .str s => escapeNRF s
  | .bool b => if b then pys "1" else pys "0"
  | .int n => intToStr n

/-- Values a `Filter` field can hold: `str`, `bool`, `int`, or an
iterable of such values (`Iterable[int]`, `Iterable[str]`). -/
inductive FVal where
  | str (s : PyStr)
  | bool (b : Bool)
  | int (n : Int)
  | iter (xs : List FVal)

mutual

/-- `_Filter._serializer`: strings get `\n`/`\r`/`\f` escaped, booleans
map to `"0"`/`"1"`, integers to decimal; any other value is iterated and
comma-joined (an exception inside the `try` is swallowed and re-raised
as `TypeError`). -/
def Filter.serializeVal : FVal → Except Unit PyStr
  | .str s => .ok (escapeNRF s)
  | .bool b => .ok (if b then pys "1" else pys "0")
  | .int n => .ok (intToStr n)
  | .iter xs =>
    match Filter.serializeValList xs with
    | .ok parts => .ok (List.intercalate [','] parts)
    | .error e => .error e

def Filter.serializeValList : List FVal → Except Unit (List PyStr)
  | [] => .ok []
  | x :: xs =>
    match Filter.serializeVal x, Filter.serializeValList xs with
    | .ok s, .ok rest => .ok (s :: rest)
    | .error e, _ => .error e
    | _, .error e => .error e

end

/-- `Message._tags_serializer`: a plain string passes through, any other
iterable is comma-joined. -/
def Message.tags_serializer : Sum PyStr (List PyStr) → PyStr
  | .inl s => s
  | .inr xs => List.intercalate [','] xs

/-- Serialize each action of a list in turn, propagating the first
exception (the generator inside `";".join`). -/
def Message.serializeEach : List AnyAction → Except Unit (List PyStr)
  | [] => .ok []
  | a :: rest => do
      let s ← a.serialize
      let t ← Message.serializeEach rest
      .ok (s :: t)

/-- `Message._actions_serializer`: `";".join(v.serialize() for v in value)`. -/
def Message.actions_serializer (acts : List AnyAction) : Except Unit PyStr := do
  let parts ← Message.serializeEach acts
  .ok (List.intercalate [';'] parts)

/-! ## `message.py` — `Message.serialize` / `Message.get_args` -/

/-- The opaque payload of the `data` field (`BinaryIO | dict`); it is
passed through unchanged by `Message._ignore`. -/
inductive DataVal where
  | binaryData (bytes : List Nat)
  | jsonDict (entries : List (PyStr × PyStr))
deriving DecidableEq, Repr

/-- A value of the serialized-headers dictionary: every field except
`data` serializes to a string; `data` is kept as-is. -/
inductive HVal where
  | hstr (s : PyStr)
  | hdata (d : DataVal)
deriving DecidableEq, Repr

/-- The `delay` field type, `int | str`. -/
inductive DelayVal where
  | int (n : Int)
  | str (s : PyStr)
deriving DecidableEq, Repr

/-- `Message` with its fields in declaration order. -/
structure Message where
  topic : Option PyStr := none
  message : Option PyStr := none
  title : Option PyStr := none
  priority : Option Int := none
  tags : Option (Sum PyStr (List PyStr)) := none
  markdown : Option Bool := none
  delay : Option DelayVal := none
  templating : Option Bool := none
  actions : Option (List AnyAction) := none
  click : Option PyStr := none
  attachment : Option PyStr := none
  filename : Option PyStr := none
  icon : Option PyStr := none
  email : Option PyStr := none
  call : Option PyStr := none
  cache : Option Bool := none
  firebase : Option Bool := none
  unified_push : Option Bool := none
  data : Option DataVal := none
deriving DecidableEq, Repr

/-- One optional entry of the serialized dictionary: a `None` field is
skipped, any other value goes through `_Message._default_serializer`. -/
def Message.optEntry (key : String) (v : Option MVal) : List (PyStr × HVal) :=
  match v with
  | none => []
  | some x => [(pys key, .hstr (Message.default_serializer x))]

/-- `Message.__post_init__`: `templating` and `filename` are mutually
exclusive; both set raises `ValueError` before any I/O. -/
def Message.post_init_ok (m : Message) : Bool :=
  !(m.templating.isSome && m.filename.isSome)

/-- `_Message.serialize`: iterate `self.__dict__.items()` in declaration
order, skip `None` values, apply each field's serializer (the default
one, or the custom `tags` / `actions` / `data` serializers), and collect
into a dictionary.  All keys are distinct, so the dictionary is the
association list in insertion order.  Only the `actions` serializer can
raise. -/
def Message.serialize (m : Message) : Except Unit (List (PyStr × HVal)) := do
  let actionsPart ←
    match m.actions with
    | none => .ok []
    | some acts => do
        let s ← Message.actions_serializer acts
        .ok [(pys "X-Actions", HVal.hstr s)]
  .ok (Message.optEntry "__topic__" (m.topic.map .str)
    ++ Message.optEntry "X-Message" (m.message.map .str)
    ++ Message.optEntry "X-Title" (m.title.map .str)
    ++ Message.optEntry "X-Priority" (m.priority.map .int)
    ++ (match m.tags with
        | none => []
        | some tv => [(pys "X-Tags", .hstr (Message.tags_serializer tv))])
    ++ Message.optEntry "X-Markdown" (m.markdown.map .bool)
    ++ Message.optEntry "X-Delay" (m.delay.map (fun dv =>
        match dv with
        | .int n => MVal.int n
        | .str s => MVal.str s))
    ++ Message.optEntry "X-Template" (m.templating.map .bool)
    ++ actionsPart
    ++ Message.optEntry "X-Click" (m.click.map .str)
    ++ Message.optEntry "X-Attach" (m.attachment.map .str)
    ++ Message.optEntry "X-Filename" (m.filename.map .str)
    ++ Message.optEntry "X-Icon" (m.icon.map .str)
    ++ Message.optEntry "X-Email" (m.email.map .str)
    ++ Message.optEntry "X-Call" (m.call.map .str)
    ++ Message.optEntry "X-Cache" (m.cache.map .bool)
    ++ Message.optEntry "X-Firebase" (m.firebase.map .bool)
    ++ Message.optEntry "X-UnifiedPush" (m.unified_push.map .bool)
    ++ (match m.data with
        | none => []
        | some d => [(pys "__data__", HVal.hdata d)]))

/-- `dict.pop(key, None)` on a dictionary with unique keys: returns the
value (if any) and the dictionary without that key, order preserved. -/
def assocPop (k : PyStr) : List (PyStr × HVal) → Option HVal × List (PyStr × HVal)
  | [] => (none, [])
  | (k', v) :: rest =>
    if k' = k then (some v, rest)
    else
      let r := assocPop k rest
      (r.1, (k', v) :: r.2)

/-- The keyword arguments `Message.get_args` builds for `httpx.post`. -/
inductive Kwargs where
  | empty
  | json (v : HVal)
  | data (v : HVal)
deriving DecidableEq, Repr

/-- `Message.get_args`: serialize, pop the `__topic__` and `__data__`
pseudo-headers, and decide between `json=`/`data=` kwargs via
`self.templating is True`.  The popped `__topic__` value is produced by
the default serializer and hence is a string. -/
def Message.get_args (m : Message) :
    Except Unit (Option PyStr × List (PyStr × HVal) × Kwargs) := do
  let headers ← m.serialize
  let (t, headers) := assocPop (pys "__topic__") headers
  let (d, headers) := assocPop (pys "__data__") headers
  let topic : Option PyStr :=
    match t with
    | some (.hstr s) => some s
    | some (.hdata _) => none
    | none => none
  let kwargs : Kwargs :=
    match d with
    | none => .empty
    | some dv => if m.templating = some true then .json dv else .data dv
  .ok (topic, headers, kwargs)

/-! ## `_internals.py` — `URL`

`URL.parse`/`URL.unparse` delegate to `urllib.parse.urlparse` and
`urllib.parse.urlunparse`, which are modelled here after CPython's
`urllib/parse.py`.  Not modelled (each is the identity, or cannot
trigger, on the URLs covered by `URL.valid` below): the WHATWG removal
of `\t`, `\r`, `\n` and of leading control/space characters, the
IPv6-bracket and netloc-NFKC validation raises, and byte/str coercion.
-/

/-- Split a list at the first occurrence of `c`: the part before it,
and — when `c` occurs — the part after it. -/
def splitOnFirst (c : Char) : PyStr → PyStr × Option PyStr
  | [] => ([], none)
  | x :: xs =>
    if x = c then ([], some xs)
    else
      let r := splitOnFirst c xs
      (x :: r.1, r.2)

/-- `scheme_chars` of `urllib.parse`: letters, digits, `+`, `-`, `.`. -/
def schemeChar (c : Char) : Bool :=
  c.isAlpha || c.isDigit || c = '+' || c = '-' || c = '.'

/-- The scheme-detection step of `urlsplit`: `i = url.find(':')`; a
scheme is recognized when `i > 0`, the first character is an ASCII
letter and everything before the colon is a scheme character; the
scheme is lowercased. -/
def splitScheme (url : PyStr) : PyStr × PyStr :=
  match splitOnFirst ':' url with
  | (front, some rest) =>
    match front with
    | [] => ([], url)
    | c :: _ =>
        if c.isAlpha && front.all schemeChar then (front.map Char.toLower, rest)
        else ([], url)
  | (_, none) => ([], url)

/-- Delimiters ending the netloc in `_splitnetloc`. -/
def netlocDelim (c : Char) : Bool := c = '/' || c = '?' || c = '#'

/-- Cut a list at the first occurrence of `c`, dropping the delimiter;
used for the `#` and `?` splits of `urlsplit`. -/
def cutTail (c : Char) (l : PyStr) : PyStr × PyStr :=
  match splitOnFirst c l with
  | (a, some b) => (a, b)
  | (a, none) => (a, [])

/-- The `//netloc` step of `urlsplit`: when the remaining URL starts
with `//`, `_splitnetloc` cuts the netloc at the first `/`, `?` or
`#`. -/
def netlocStep (url : PyStr) : PyStr × PyStr :=
  match url with
  | '/' :: '/' :: rest =>
      (rest.takeWhile (fun c => !netlocDelim c), rest.dropWhile (fun c => !netlocDelim c))
  | _ => ([], url)

/-- `urllib.parse.urlsplit` (with `allow_fragments=True`):
scheme, then `//netloc`, then fragment, then query. -/
def pyUrlsplit (url : PyStr) : PyStr × PyStr × PyStr × PyStr × PyStr :=
  let (scheme, url1) := splitScheme url
  let (netloc, url2) := netlocStep url1
  let (url3, fragment) := cutTail '#' url2
  let (url4, query) := cutTail '?' url3
  (scheme, netloc, url4, query, fragment)

/-- `uses_params` of `urllib.parse`. -/
def usesParams (scheme : PyStr) : Bool :=
  ([ [], pys "ftp", pys "hdl", pys "prospero", pys "http", pys "imap",
     pys "https", pys "shttp", pys "rtsp", pys "rtspu", pys "sip",
     pys "sips", pys "mms", pys "sftp", pys "tel" ] : List PyStr).contains scheme

/-- `urllib.parse._splitparams`: split at the first `;` that follows
the last `/` (or the first `;` overall when there is no `/`); no split
happens when no such `;` exists. -/
def splitparams (url : PyStr) : PyStr × PyStr :=
  match splitOnFirst '/' url.reverse with
  | (revTail, some revInit) =>
    match splitOnFirst ';' revTail.reverse with
    | (s1, some s2) => (revInit.reverse ++ '/' :: s1, s2)
    | (_, none) => (url, [])
  | (_, none) =>
    match splitOnFirst ';' url with
    | (s1, some s2) => (s1, s2)
    | (_, none) => (url, [])

/-- `urllib.parse.urlparse`: `urlsplit` plus the params split, guarded
by `scheme in uses_params and ';' in url`. -/
def pyUrlparse (url : PyStr) : PyStr × PyStr × PyStr × PyStr × PyStr × PyStr :=
  let (scheme, netloc, u, query, fragment) := pyUrlsplit url
  let (path, params) :=
    if usesParams scheme && u.contains ';' then splitparams u else (u, [])
  (scheme, netloc, path, params, query, fragment)

/-- Strip every trailing occurrence of `c` (Python `str.rstrip`). -/
def rstripChar (c : Char) (l : PyStr) : PyStr :=
  (l.reverse.dropWhile (· = c)).reverse

/-- Strip every leading occurrence of `c` (Python `str.lstrip`). -/
def lstripChar (c : Char) (l : PyStr) : PyStr :=
  l.dropWhile (· = c)

structure URL where
  scheme : PyStr
  netloc : PyStr
  path : PyStr
  params : PyStr
  query : PyStr
  fragment : PyStr
deriving DecidableEq, Repr

/-- `URL.parse`: `urlparse` the string and strip trailing slashes from
the path. -/
def URL.parse (url : PyStr) : URL :=
  let (s, n, p, r, q, f) := pyUrlparse url
  ⟨s, n, rstripChar '/' p, r, q, f⟩

/-- `urllib.parse.urlunsplit`. -/
def pyUrlunsplit (scheme netloc url query fragment : PyStr) : PyStr :=
  let url1 :=
    if !netloc.isEmpty || url.take 2 = ['/', '/'] then
      let url' := if !url.isEmpty && url.head? ≠ some '/' then '/' :: url else url
      '/' :: '/' :: (netloc ++ url')
    else url
  let url2 := if !scheme.isEmpty then scheme ++ ':' :: url1 else url1
  let url3 := if !query.isEmpty then url2 ++ '?' :: query else url2
  if !fragment.isEmpty then url3 ++ '#' :: fragment else url3

/-- `urllib.parse.urlunparse`: re-attach `;params` to the path, then
`urlunsplit`. -/
def pyUrlunparse (scheme netloc path params query fragment : PyStr) : PyStr :=
  let url := if !params.isEmpty then path ++ ';' :: params else path
  pyUrlunsplit scheme netloc url query fragment

/-- `URL._unparse`: rebuild the URL with the given path and scheme. -/
def URL.unparseWith (u : URL) (path scheme : PyStr) : PyStr :=
  pyUrlunparse scheme u.netloc path u.params u.query u.fragment

/-- The `endpoint` argument of `URL.unparse`:
`str | Iterable[str] | None` (truthiness matters: empty string and
empty iterable behave like `None`). -/
inductive EndpointArg where
  | none
  | str (s : PyStr)
  | iter (xs : List PyStr)
deriving DecidableEq, Repr

def EndpointArg.truthy : EndpointArg → Bool
  | .none => false
  | .str s => !s.isEmpty
  | .iter xs => !xs.isEmpty

/-- `_SECURE_URL_SCHEMES` from `_internals.py`. -/
def secureURLSchemes : List PyStr :=
  [pys "https", pys "wss", pys "sftp", pys "aaas", pys "msrps", pys "sips"]

/-- `URL.unparse`: optionally append endpoint segments (each stripped of
leading slashes, joined with `/`), optionally substitute the
(insecure, secure) scheme pair according to the current scheme's
security status, then rebuild. -/
def URL.unparse (u : URL) (endpoint : EndpointArg) (scheme : Option (PyStr × PyStr)) : PyStr :=
  let path :=
    if endpoint.truthy then
      let eps := match endpoint with
        | .str s => [s]
        | .iter xs => xs
        | .none => []
      u.path ++ '/' :: List.intercalate ['/'] (eps.map (lstripChar '/'))
    else u.path
  let sch :=
    match scheme with
    | some pair => if secureURLSchemes.contains u.scheme then pair.2 else pair.1
    | none => u.scheme
  u.unparseWith path sch

/-! ## `client.py` — `NtfyClient.publish` request construction -/

inductive PublishErr where
  | noTopic
  | typeError
deriving DecidableEq, Repr

/-- The arguments handed to `httpx.post` (or `client.post`). -/
structure PublishRequest where
  url : PyStr
  headers : List (PyStr × HVal)
  kwargs : Kwargs
deriving DecidableEq, Repr

/-- Python `{**a, **b}` for dictionaries with unique keys: entries of
`a` stay in place (overridden by `b` where keys collide), new keys of
`b` are appended in order. -/
def pyDictMerge (a b : List (PyStr × HVal)) : List (PyStr × HVal) :=
  a.map (fun p => (p.1, ((b.find? (fun q => q.1 = p.1)).map Prod.snd).getD p.2))
    ++ b.filter (fun q => (a.find? (fun p => p.1 = q.1)).isNone)

/-- The topic-resolution block of `NtfyClient.publish`, with Python
truthiness on the topic strings:

    if msg_topic:
        if topic and topic_override: msg_topic = topic
    else:
        if topic: msg_topic = topic
        else:
            if not self.default_topic: raise ValueError(...)
            msg_topic = self.default_topic
-/
def publishResolve (default_topic msg_topic topic : Option PyStr)
    (topic_override : Bool) : Except PublishErr PyStr :=
  if optTruthy msg_topic then
    if optTruthy topic && topic_override then .ok (topic.getD [])
    else .ok (msg_topic.getD [])
  else
    if optTruthy topic then .ok (topic.getD [])
    else
      if !optTruthy default_topic then .error .noTopic
      else .ok (default_topic.getD [])

/-- `NtfyClient.publish` up to the point the HTTP request is issued:
`msg.get_args()`, topic resolution, and the request's URL
(`self._url.unparse(endpoint=msg_topic)`), headers
(`{**self._auth_header, **headers}`) and kwargs.  `url` and `auth` are
the `_url` / `_auth_header` attributes computed in `__post_init__`.  A
`.error` result models an exception raised before any request is
made. -/
def publishArgs (url : URL) (auth : List (PyStr × PyStr)) (default_topic : Option PyStr)
    (msg : Message) (topic : Option PyStr) (topic_override : Bool) :
    Except PublishErr PublishRequest := do
  let (msg_topic, headers, kwargs) ←
    (msg.get_args).mapError (fun _ => PublishErr.typeError)
  let t ← publishResolve default_topic msg_topic topic topic_override
  .ok ⟨URL.unparse url (.str t) Option.none,
       pyDictMerge (auth.map (fun p => (p.1, HVal.hstr p.2))) headers,
       kwargs⟩

/-! ## `errors.py` — `APIError` and the publish status check -/

/-- A JSON scalar as found in the ntfy error body. -/
inductive JVal where
  | str (s : PyStr)
  | int (n : Int)
deriving DecidableEq, Repr

/-- What `json.loads(response.content)` followed by `.get` yields:
either a JSON object (with the four recognized optional keys), or
anything that makes the `try` block raise — absent/empty content,
malformed JSON, or a non-object value (`.get` raises
`AttributeError`). -/
inductive Body where
  | dict (http code error link : Option JVal)
  | undecodable
deriving DecidableEq, Repr

structure Response where
  status_code : Int
  body : Body
deriving DecidableEq, Repr

/-- Python `repr` of a string, modelled for strings of printable
characters: double quotes are used when the string contains `'` but no
`"`, otherwise single quotes; backslashes, the quote character, and
`\n`/`\r`/`\t` are escaped. -/
def pyReprStr (s : PyStr) : PyStr :=
  let q := if s.contains '\'' && !s.contains '"' then '"' else '\''
  q :: s.flatMap (fun c =>
    if c = '\\' then ['\\', '\\']
    else if c = q then ['\\', q]
    else if c = '\n' then ['\\', 'n']
    else if c = '\r' then ['\\', 'r']
    else if c = '\t' then ['\\', 't']
    else [c]) ++ [q]

/-- Python `repr` of a JSON scalar (`f"{v!r}"`). -/
def pyRepr : JVal → PyStr
  | .str s => pyReprStr s
  | .int n => intToStr n

/-- The message built by `APIError.__init__`: on a decodable JSON
object, `"; "`-join `k={v!r}` over the keys `http`, `code`, `error`,
`link` that are present; any exception falls back to the bare status
code.  (`stream` only selects where the bytes come from.) -/
def apiErrorMessage (r : Response) : PyStr :=
  match r.body with
  | .dict h c e l =>
      let parts := ([(pys "http", h), (pys "code", c), (pys "error", e), (pys "link", l)]
        : List (PyStr × Option JVal)).filterMap
          (fun kv => kv.2.map (fun v => kv.1 ++ '=' :: pyRepr v))
      pys "Error interacting with the API (" ++ List.intercalate (pys "; ") parts ++ pys ")"
  | .undecodable =>
      pys "Error interacting with the API (http: " ++ intToStr r.status_code ++ pys ")"

/-- The tail of `NtfyClient.publish`:
`if resp.status_code != 200: raise APIError(resp, False)`; otherwise
the response is returned. -/
def checkPublishResponse (r : Response) : Except PyStr Response :=
  if r.status_code ≠ 200 then .error (apiErrorMessage r) else .ok r

/-! ## `_internals.py` — `ClearableQueue`; `subscription.py` — `_thread_fn` -/

structure ClearableQueue (α : Type) where
  maxsize : Int
  queue : List α
  unfinished_tasks : Int
deriving DecidableEq, Repr

/-- `queue.Queue.put(item, block=False)`: with a positive `maxsize` and
a full queue it raises `queue.Full`; otherwise the item is appended and
`unfinished_tasks` is incremented. -/
def ClearableQueue.put_nowait (q : ClearableQueue α) (x : α) :
    Except Unit (ClearableQueue α) :=
  if 0 < q.maxsize ∧ q.maxsize ≤ (q.queue.length : Int) then .error ()
  else .ok { q with queue := q.queue ++ [x], unfinished_tasks := q.unfinished_tasks + 1 }

/-- `ClearableQueue.clear`, under the mutex: recompute
`unfinished = unfinished_tasks - len(queue)`; a negative value raises
`ValueError` (before any state change); otherwise the count is stored,
the queue is emptied, and the returned flag records whether
`all_tasks_done.notify_all()` ran (`not_full` is always notified). -/
def ClearableQueue.clear (q : ClearableQueue α) :
    Except Unit (ClearableQueue α × Bool) :=
  let unfinished : Int := q.unfinished_tasks - q.queue.length
  if unfinished ≤ 0 then
    if unfinished < 0 then .error ()
    else .ok ({ q with queue := [], unfinished_tasks := unfinished }, true)
  else .ok ({ q with queue := [], unfinished_tasks := unfinished }, false)

/-- One inbound WebSocket frame as seen by `_thread_fn`: either a frame
whose JSON decoding or `_ReceivedMessage` construction fails (logged and
skipped), or a successfully parsed message. -/
inductive WSFrame (α : Type) where
  | invalid
  | valid (m : α)
deriving DecidableEq, Repr

/-- How the consumer loop ends. -/
inductive ThreadExit where
  | connCleared
  | connClosed
  | uncaughtQueueFull
deriving DecidableEq, Repr

/-- The receive loop of `NtfySubscription._thread_fn` over a fixed
sequence of inbound frames: invalid frames are logged and skipped
(`json.JSONDecodeError` / `AttributeError` / `TypeError` /
`ValueError` are caught); exhausting the frames stands for the
connection closing, which raises `ConnectionClosed` out of `recv` and is
caught, ending the loop; `self.messages.put(..., block=False)` on a full
queue raises `queue.Full`, which none of the `except` clauses catch, so
it propagates and terminates the consumer thread. -/
def threadLoop : List (WSFrame α) → ClearableQueue α → ClearableQueue α × ThreadExit
  | [], q => (q, .connClosed)
  | .invalid :: rest, q => threadLoop rest q
  | .valid m :: rest, q =>
    match q.put_nowait m with
    | .ok q' => threadLoop rest q'
    | .error _ => (q, .uncaughtQueueFull)

/-- `NtfySubscription._thread_fn`: a cleared connection
(`self._ws_conn is None`) returns immediately; otherwise the receive
loop runs. -/
def thread_fn (conn : Option (List (WSFrame α))) (q : ClearableQueue α) :
    ClearableQueue α × ThreadExit :=
  match conn with
  | none => (q, .connCleared)
  | some frames => threadLoop frames q

/-! ## Specification-side definitions

The following definitions are written from the specification's words
(not from the source); the theorems below compare them with the
embedded code. -/

/-- The default string encoding as the specification words it: escape
`\` then `"` (backslash-escape each), then wrap the whole escaped
string in double quotes iff it contains any of `, ; = ' " \`. -/
def specEscapeWrap (s : PyStr) : PyStr :=
  let escaped := s.flatMap (fun c =>
    if c = '\\' then ['\\', '\\']
    else if c = '"' then ['\\', '"']
    else [c])
  if escaped.any (fun c => c ∈ ([',', ';', '=', '\'', '"', '\\'] : List Char)) then
    '"' :: escaped ++ ['"']
  else escaped

/-- The serialize-to-segments algorithm as the specification words it:
for every field with a non-unset value, the positional fields
contribute the encoded value alone and the keyed fields contribute
`wireKey=encodedValue`. -/
def specActionSegments (a : AnyAction) : List PyStr :=
  a.dictItems.filterMap (fun it =>
    it.2.2.bind (fun v =>
      (Action.default_serializer (some it.1) v).toOption.map (fun enc =>
        if it.2.1 then it.1 ++ '=' :: enc else enc)))

/-- The topic-precedence formula of the specification, over the
already-serialized message topic: `M` if `M` is set and not (`A` set
and override); else `A` if set; else `D` if set; else no topic (an
empty string counts as unset). -/
def resolveSpec (d m a : Option PyStr) (o : Bool) : Option PyStr :=
  if optTruthy m then (if optTruthy a && o then a else m)
  else if optTruthy a then a
  else if optTruthy d then d
  else none

/-- The claim's notion of a successful HTTP status: any 2xx. -/
def claimed2xx (status : Int) : Bool := 200 ≤ status && status < 300

/-- The error-message synthesis as the specification words it: the
message is synthesized from whichever of the `http`, `code`, `error`,
`link` fields are present, falling back to the bare status code when
the body is absent or does not parse. -/
def specApiMsg (status : Int) (b : Body) : PyStr :=
  match b with
  | .dict h c e l =>
      let part (k : String) (v : Option JVal) : List PyStr :=
        match v with
        | none => []
        | some x => [pys k ++ '=' :: pyRepr x]
      pys "Error interacting with the API ("
        ++ List.intercalate (pys "; ")
            (part "http" h ++ part "code" c ++ part "error" e ++ part "link" l)
        ++ pys ")"
  | .undecodable =>
      pys "Error interacting with the API (http: " ++ intToStr status ++ pys ")"

/-- `clear` as the amended specification words it: with
`d = unfinished_tasks - len(queue)`, a negative `d` fails loudly and
changes nothing; otherwise the queue is emptied, the in-flight count
becomes `d`, and the queue-drained waiters are woken exactly when `d`
is zero. -/
def clearSpec (q : ClearableQueue α) : Except Unit (ClearableQueue α × Bool) :=
  let d : Int := q.unfinished_tasks - q.queue.length
  if d < 0 then .error ()
  else .ok ({ q with queue := [], unfinished_tasks := d }, decide (d = 0))

/-- A message whose only set field is (possibly) the topic. -/
def msgTopicOnly (t : Option PyStr) : Message := { topic := t }

/-! ## Validity of an endpoint (for the round-trip claim)

`URL.valid` characterizes the endpoints for which the reconstructed
string parses back to the same components.  It captures (up to the
unmodelled checks noted at the `URL` section) the image of `URL.parse`
on well-behaved URLs: a lowercase ASCII scheme, a netloc without
delimiters or brackets, a path without a trailing slash, params only
under a params-capable scheme, and no component smuggling in a
delimiter that a later parse would split on first. -/

/-- Is there a colon reachable through scheme characters only?  Scans
left to right: a `:` found before any non-scheme character makes the
string (as a parse input) start with something scheme-shaped. -/
def colonAfterSchemeChars : PyStr → Bool
  | [] => false
  | c :: rest => if c = ':' then true else schemeChar c && colonAfterSchemeChars rest

/-- Would `urlsplit` mistake the front of this string for a scheme?
True iff it starts with an ASCII letter and a `:` is reachable through
scheme characters. -/
def schemeLike : PyStr → Bool
  | [] => false
  | c :: rest => c.isAlpha && colonAfterSchemeChars rest

/-- The segment of `l` after its last `/` (all of `l` when it has
none); `_splitparams` looks for `;` only there. -/
def lastSegment (l : PyStr) : PyStr :=
  (l.reverse.takeWhile (· ≠ '/')).reverse

/-- Validity of an endpoint; see the section comment. -/
def URL.valid (e : URL) : Bool :=
  -- scheme: empty, or ASCII-letter-led lowercase scheme characters
  (e.scheme.isEmpty ||
    (match e.scheme with
     | c :: _ => c.isAlpha && e.scheme.all (fun d => schemeChar d && !d.isUpper)
     | [] => false)) &&
  -- netloc: ASCII, no delimiter and no IPv6 bracket
  e.netloc.all (fun c => !netlocDelim c && c ≠ '[' && c ≠ ']' && c.toNat < 128) &&
  -- path: no query/fragment delimiter, no trailing slash
  !e.path.contains '?' && !e.path.contains '#' &&
  (e.path.getLast? ≠ some '/') &&
  -- an absolute path when a netloc is present
  (e.netloc.isEmpty || e.path.isEmpty || e.path.head? = some '/') &&
  -- nothing scheme-shaped at the front when scheme and netloc are absent
  (!(e.scheme.isEmpty && e.netloc.isEmpty) || !schemeLike e.path) &&
  -- params: no delimiters, and only under a params-capable scheme
  !e.params.contains '/' && !e.params.contains '?' && !e.params.contains '#' &&
  (e.params.isEmpty || usesParams e.scheme) &&
  -- the params split must not fire inside the path itself
  (!usesParams e.scheme || !(lastSegment e.path).contains ';') &&
  -- query: the fragment split runs first
  !e.query.contains '#' &&
  -- characters the unmodelled WHATWG sanitization would remove
  ([e.scheme, e.netloc, e.path, e.params, e.query, e.fragment].all
    (fun comp => comp.all (fun c => c ≠ '\t' && c ≠ '\r' && c ≠ '\n'))) &&
  -- no leading control/space character (the unmodelled lstrip)
  (!(e.scheme.isEmpty && e.netloc.isEmpty) ||
    (match e.path.head? with
     | some c => 0x20 < c.toNat
     | none => true))

/-! ## Claim C1 -/

/-- C1: with `max_queue_size = 1` and six received messages, the
non-blocking `put` of the second message raises `queue.Full`, which no
handler in `_thread_fn` catches: the consumer thread crashes instead of
silently dropping the message (the queue does retain the first
`max_queue_size` messages in FIFO order). -/
theorem C1_queue_full_crashes_consumer :
    thread_fn (some ((List.range 6).map WSFrame.valid)) (⟨1, [], 0⟩ : ClearableQueue Nat) =
      ({ maxsize := 1, queue := [0], unfinished_tasks := 1 }, ThreadExit.uncaughtQueueFull) := by
  decide

/-! ## Claim C8 -/

/-- C8 counterexample: clearing a queue with no items and one in-flight
task leaves a non-negative (positive) in-flight count, yet the
queue-drained condition is *not* notified — the claim's "woken in the
non-negative case" is false; the code notifies only when the new count
is exactly zero. -/
theorem C8_counterexample :
    ClearableQueue.clear (⟨0, [], 1⟩ : ClearableQueue Nat) = .ok (⟨0, [], 1⟩, false) ∧
    (0 : Int) ≤ (1 : Int) - 0 := by
  decide

/-- C8 (amended): `clear` empties the queue and sets the in-flight
count to `unfinished_tasks - len(queue)`; it raises exactly when that
difference is negative (leaving the state unchanged), and wakes the
queue-drained waiters exactly when the difference is zero.  In
particular, clearing a queue holding 2 items plus 1 dequeued-but-
unfinished task yields an empty queue with in-flight count 1. -/
theorem C8_clear_bookkeeping :
    (∀ (α : Type) (q : ClearableQueue α), q.clear = clearSpec q) ∧
    ClearableQueue.clear (⟨0, [10, 20], 3⟩ : ClearableQueue Nat) = .ok (⟨0, [], 1⟩, false) := by
  constructor
  · intro α q
    simp only [ClearableQueue.clear, clearSpec]
    by_cases h1 : q.unfinished_tasks - (q.queue.length : Int) ≤ 0
    · by_cases h2 : q.unfinished_tasks - (q.queue.length : Int) < 0
      · simp [h1, h2]
      · have h0 : q.unfinished_tasks - (q.queue.length : Int) = 0 := by omega
        simp [h1, h2, h0]
    · have h2 : ¬ q.unfinished_tasks - (q.queue.length : Int) < 0 := by omega
      have h0 : q.unfinished_tasks - (q.queue.length : Int) ≠ 0 := by omega
      simp [h1, h2, h0]
  · decide

/-! ## Claim C9 -/

/-- C9 counterexample: the base64 encoding of `"u:p"` is `"dTpw"`, not
the `"dXpw"` the claim asserts the `Authorization` header to carry. -/
theorem C9_counterexample :
    Credentials.get_header ⟨.tup [.str (pys "u"), .str (pys "p")], Option.none⟩ =
      .ok [(pys "Authorization", pys "Basic dTpw")] ∧
    pys "dTpw" ≠ pys "dXpw" := by
  decide

/-- C9 (amended): publishing a message with topic `"T"`, title `"hi"`
under Basic `("u","p")` credentials issues a POST to `<base>/T` with
headers exactly `Authorization: Basic dTpw` (the correct base64 of
`"u:p"`) and `X-Title: hi`, and an empty body. -/
theorem C9_publish_scenario :
    Credentials.get_header ⟨.tup [.str (pys "u"), .str (pys "p")], Option.none⟩ =
      .ok [(pys "Authorization", pys "Basic dTpw")] ∧
    publishArgs (URL.parse (pys "https://example.com"))
        [(pys "Authorization", pys "Basic dTpw")] Option.none
        { topic := some (pys "T"), title := some (pys "hi") } Option.none false =
      .ok ⟨pys "https://example.com/T",
           [(pys "Authorization", .hstr (pys "Basic dTpw")),
            (pys "X-Title", .hstr (pys "hi"))],
           .empty⟩ := by
  decide

/-! ## Claim C4 -/

/-- C4 counterexample: a 201 response is 2xx, yet `publish` raises
`APIError` because the code tests `status_code != 200`. -/
theorem C4_counterexample :
    checkPublishResponse ⟨201, .undecodable⟩ =
      .error (pys "Error interacting with the API (http: 201)") ∧
    claimed2xx 201 = true := by
  decide

/-- C4 (amended): `publish` raises `APIError` exactly when the status
code differs from 200 (201 raises too), and the error message is
synthesized from whichever of the body's `http`, `code`, `error`,
`link` fields are present, falling back to the bare status code when
the body does not decode to a JSON object. -/
theorem C4_publish_raises_iff_not_200 :
    ∀ (st : Int) (b : Body),
      checkPublishResponse ⟨st, b⟩ =
        if st = 200 then .ok ⟨st, b⟩ else .error (specApiMsg st b) := by
  intro st b
  unfold checkPublishResponse
  by_cases h : st = 200
  · simp [h]
  · simp only [h, if_neg, ne_eq, not_false_iff, if_true, if_false]
    cases b with
    | undecodable => rfl
    | dict hh cc ee ll => cases hh <;> cases cc <;> cases ee <;> cases ll <;> rfl

/-! ## Claim C6 -/

/-- C6 counterexample: an empty tuple is present and malformed (its
length is not 2), yet `get_header` returns the empty map rather than
raising; and a pair of two strings with a non-ASCII component raises
`UnicodeEncodeError`, a case in which the claim promises a successful
Basic header. -/
theorem C6_counterexample :
    Credentials.get_header ⟨.tup [], Option.none⟩ = .ok [] ∧
    ([] : List TupElem).length ≠ 2 ∧
    Credentials.get_header ⟨.tup [.str (pys "ü"), .str (pys "p")], Option.none⟩ =
      .error .unicodeEncodeError := by
  decide

/-- C6 (amended): `get_header` returns Bearer whenever `bearer` is set;
else Basic with the token verbatim when `basic` is a string; else, for
a pair of two strings, Basic with the base64 of `user:pass` — raising
`UnicodeEncodeError` when a component is not ASCII; a *truthy*
malformed `basic` raises the invalid-credentials error, while a falsy
one (the empty tuple) and an absent `basic` yield the empty map; it
raises in no other case. -/
theorem C6_get_header :
    ∀ c : Credentials, c.get_header = credsSpec c := by
  intro c
  obtain ⟨b, br⟩ := c
  cases br with
  | some t => rfl
  | none =>
    cases b with
    | none => rfl
    | str s => rfl
    | tup xs =>
      match xs with
      | [] => rfl
      | [x] => cases x <;> rfl
      | [x, y] =>
        cases x with
        | nonStr => cases y <;> rfl
        | str u =>
          cases y with
          | nonStr => rfl
          | str p =>
            simp only [Credentials.get_header, credsSpec, encodeAscii]
            split_ifs <;> rfl
      | x :: y :: z :: rest => cases x <;> cases y <;> rfl

/-! ## Claim C3 -/

theorem except_bind_ok {α β ε : Type} (x : α) (f : α → Except ε β) :
    (Except.ok x : Except ε α).bind f = f x := rfl

theorem except_bind_error {α β ε : Type} (e : ε) (f : α → Except ε β) :
    (Except.error e : Except ε α).bind f = .error e := rfl

theorem except_mapError_ok {α ε ε' : Type} (x : α) (f : ε → ε') :
    (Except.ok x : Except ε α).mapError f = .ok x := rfl

theorem except_pure_bind {α β ε : Type} (x : α) (f : α → Except ε β) :
    (Except.ok x : Except ε α) >>= f = f x := rfl

theorem except_bind_def {α β ε : Type} (e : Except ε α) (f : α → Except ε β) :
    e >>= f = e.bind f := rfl

theorem pyReplaceChar_append (c : Char) (rep a b : PyStr) :
    pyReplaceChar c rep (a ++ b) = pyReplaceChar c rep a ++ pyReplaceChar c rep b := by
  induction a with
  | nil => rfl
  | cons x xs ih => simp [pyReplaceChar, ih]

/-- The two successive `replace` passes of the action escaping equal a
single per-character pass. -/
theorem escapeStr_eq_flatMap (s : PyStr) :
    Action.escapeStr s = s.flatMap (fun c =>
      if c = '\\' then ['\\', '\\']
      else if c = '"' then ['\\', '"']
      else [c]) := by
  induction s with
  | nil => rfl
  | cons c rest ih =>
    show pyReplaceChar '"' ['\\', '"'] (pyReplaceChar '\\' ['\\', '\\'] (c :: rest)) = _
    simp only [pyReplaceChar, pyReplaceChar_append]
    by_cases h1 : c = '\\'
    · subst h1
      simpa [pyReplaceChar] using ih
    · by_cases h2 : c = '"'
      · subst h2
        simpa [pyReplaceChar] using ih
      · simp only [h1, h2, if_neg, if_false, List.flatMap_cons]
        simpa [pyReplaceChar, h1, h2] using ih

theorem action_serializeStr_eq_spec (s : PyStr) :
    Action.serializeStr s = specEscapeWrap s := by
  simp only [Action.serializeStr, specEscapeWrap, Action.wrapNeeded, escapeStr_eq_flatMap]

/-- C3 counterexample: the Message/Filter default encoder returns the
string `a,b` unquoted (it only escapes `\n`, `\r`, `\f`), while the
claimed escape-then-wrap rule would produce `"a,b"`. -/
theorem C3_counterexample :
    Message.default_serializer (.str (pys "a,b")) = pys "a,b" ∧
    Filter.serializeVal (.str (pys "a,b")) = .ok (pys "a,b") ∧
    specEscapeWrap (pys "a,b") = pys "\"a,b\"" ∧
    pys "a,b" ≠ pys "\"a,b\"" := by
  decide

/-- C3 (amended): the escape-then-wrap string rule (escape `\` then
`"`, wrap in double quotes iff the escaped string contains one of
`, ; = ' " \`) is the Action default encoder's; the Filter and Message
default encoders instead escape `\n`, `\r`, `\f` and return the string
otherwise unchanged.  Booleans encode as `"false"`/`"true"` in the
Action encoder and as `"0"`/`"1"` in the Filter and Message encoders. -/
theorem C3_default_encoders :
    ∀ (key : Option PyStr) (s : PyStr) (b : Bool),
      Action.default_serializer key (.str s) = .ok (specEscapeWrap s) ∧
      Message.default_serializer (.str s) = escapeNRF s ∧
      Filter.serializeVal (.str s) = .ok (escapeNRF s) ∧
      Action.default_serializer key (.bool b) = .ok (if b then pys "true" else pys "false") ∧
      Message.default_serializer (.bool b) = (if b then pys "1" else pys "0") ∧
      Filter.serializeVal (.bool b) = .ok (if b then pys "1" else pys "0") := by
  intro key s b
  refine ⟨?_, rfl, rfl, rfl, rfl, rfl⟩
  show (Except.ok (Action.serializeStr s) : Except Unit PyStr) = _
  rw [action_serializeStr_eq_spec]

/-! ## Claim C7 -/

theorem anyAction_serialize_ok (a : AnyAction) :
    a.serialize = .ok (List.intercalate [','] (a.tag :: specActionSegments a)) := by
  cases a with
  | view v => rcases v with ⟨l, u, _ | c⟩ <;> rfl
  | broadcast v => rcases v with ⟨l, _ | i, _ | e, _ | c⟩ <;> rfl
  | http v => rcases v with ⟨l, u, _ | m, _ | hh, _ | bd, _ | c⟩ <;> rfl

theorem serializeEach_ok (acts : List AnyAction) :
    Message.serializeEach acts =
      .ok (acts.map (fun a => List.intercalate [','] (a.tag :: specActionSegments a))) := by
  induction acts with
  | nil => rfl
  | cons a rest ih =>
    simp only [Message.serializeEach, anyAction_serialize_ok, ih]
    rfl

/-- C7: serializing an action yields the action tag followed by, for
every non-unset field in declaration order, either the bare encoded
value (positional field) or `wireKey=encodedValue` (keyed field), all
joined with `,`; a list of actions serializes to the `;`-join of the
individual serializations. -/
theorem C7_action_serialization :
    (∀ a : AnyAction,
      a.serialize = .ok (List.intercalate [','] (a.tag :: specActionSegments a))) ∧
    (∀ acts : List AnyAction,
      Message.actions_serializer acts =
        .ok (List.intercalate [';'] (acts.map (fun a =>
          List.intercalate [','] (a.tag :: specActionSegments a))))) := by
  refine ⟨anyAction_serialize_ok, ?_⟩
  intro acts
  simp only [Message.actions_serializer, serializeEach_ok]
  rfl

/-! ## Claims C2 and C10 -/

theorem msgTopicOnly_get_args (m : Option PyStr) :
    Message.get_args (msgTopicOnly m) = .ok (m.map escapeNRF, [], Kwargs.empty) := by
  cases m <;>
    simp [Message.get_args, Message.serialize, msgTopicOnly, Message.optEntry, assocPop,
      Message.default_serializer, except_pure_bind]

/-- `publish` on a message whose only set field is the topic: the
request is determined by `publishResolve` applied to the *serialized*
message topic. -/
theorem publishArgs_msgTopicOnly (u : URL) (auth : List (PyStr × PyStr))
    (d a : Option PyStr) (o : Bool) (m : Option PyStr) :
    publishArgs u auth d (msgTopicOnly m) a o =
      (publishResolve d (m.map escapeNRF) a o).bind (fun t =>
        .ok ⟨URL.unparse u (.str t) Option.none,
          pyDictMerge (auth.map (fun p => (p.1, HVal.hstr p.2))) [], .empty⟩) := by
  simp only [publishArgs, msgTopicOnly_get_args, except_mapError_ok, except_pure_bind,
    except_bind_def, except_bind_ok]

/-- The resolution block and the specification's precedence formula
agree. -/
theorem publishResolve_eq_resolveSpec (d m a : Option PyStr) (o : Bool) :
    publishResolve d m a o =
      match resolveSpec d m a o with
      | some t => .ok t
      | none => .error .noTopic := by
  cases m <;> cases a <;> cases d <;>
    simp [publishResolve, resolveSpec, optTruthy] <;>
    split_ifs <;> simp_all

/-- C2 (amended): `publish` resolves the topic by the claimed
precedence formula applied to the *serialized* message topic
`M' = escapeNRF M` (Message serialization escapes `\n`, `\r`, `\f`):
`M'` if `M'` is non-empty and not (`A` non-empty and override); else
`A` if non-empty; else the client default if non-empty; otherwise the
no-topic error is raised before any request is built.  The POST URL is
the endpoint with `/` plus the resolved topic (stripped of leading
slashes by `URL.unparse`) appended to the path. -/
theorem C2_topic_precedence :
    ∀ (u : URL) (auth : List (PyStr × PyStr)) (d m a : Option PyStr) (o : Bool),
      publishArgs u auth d (msgTopicOnly m) a o =
        match resolveSpec d (m.map escapeNRF) a o with
        | some t => .ok ⟨URL.unparse u (.str t) Option.none,
            pyDictMerge (auth.map (fun p => (p.1, HVal.hstr p.2))) [], .empty⟩
        | none => .error .noTopic := by
  intro u auth d m a o
  rw [publishArgs_msgTopicOnly, publishResolve_eq_resolveSpec]
  cases resolveSpec d (m.map escapeNRF) a o <;> rfl

/-- The resolution block ignores an empty-string `topic` argument. -/
theorem publishResolve_empty_arg (d t : Option PyStr) (o : Bool) :
    publishResolve d t (some []) o = publishResolve d t Option.none o := by
  simp [publishResolve, optTruthy]

/-- C2 counterexample: with message topic `"a\nb"` (set, non-empty) and
no other topic source, the claim says the POST goes to
`endpoint/a\nb`; the code serializes the topic first, so the request
URL carries `a\\nb`. -/
theorem C2_counterexample :
    publishArgs (URL.parse (pys "https://example.com")) [] Option.none
        (msgTopicOnly (some (pys "a\nb"))) Option.none false =
      .ok ⟨pys "https://example.com/a\\nb", [], .empty⟩ ∧
    pys "a\\nb" ≠ pys "a\nb" := by
  decide

/-- C10: `NtfyClient.publish` tests topic presence by string
truthiness: a message whose topic is the empty string behaves exactly
like a message with no topic (resolution falls through to the argument
topic, then the default, and raises the no-topic error when neither is
set), and an empty-string `topic` argument behaves exactly like an
absent one. -/
theorem C10_empty_topic_is_unset :
    ∀ (u : URL) (auth : List (PyStr × PyStr)) (d a : Option PyStr) (o : Bool) (m : Message),
      (publishArgs u auth d (msgTopicOnly (some [])) a o =
        publishArgs u auth d (msgTopicOnly Option.none) a o) ∧
      (publishArgs u auth Option.none (msgTopicOnly (some [])) Option.none o =
        .error .noTopic) ∧
      (publishArgs u auth d m (some []) o = publishArgs u auth d m Option.none o) := by
  intro u auth d a o m
  refine ⟨?_, ?_, ?_⟩
  · rw [publishArgs_msgTopicOnly, publishArgs_msgTopicOnly]
    rfl
  · rw [publishArgs_msgTopicOnly]
    rfl
  · show Except.bind _ _ = Except.bind _ _
    cases h : (Message.get_args m).mapError (fun _ => PublishErr.typeError) with
    | error e => rfl
    | ok trip =>
      simp only [except_bind_ok, except_bind_error, except_pure_bind, except_bind_def,
        publishResolve_empty_arg]

/-! ## Claim C5 — list-splitting lemmas -/

theorem splitOnFirst_not_mem {c : Char} {l : PyStr} (h : c ∉ l) :
    splitOnFirst c l = (l, none) := by
  induction l with
  | nil => rfl
  | cons x xs ih =>
    have hx : x ≠ c := fun e => h (e ▸ List.mem_cons_self x xs)
    have hxs : c ∉ xs := fun m => h (List.mem_cons_of_mem x m)
    simp [splitOnFirst, hx, ih hxs]

theorem splitOnFirst_append {c : Char} {a : PyStr} (b : PyStr) (h : c ∉ a) :
    splitOnFirst c (a ++ c :: b) = (a, some b) := by
  induction a with
  | nil => simp [splitOnFirst]
  | cons x xs ih =>
    have hx : x ≠ c := fun e => h (e ▸ List.mem_cons_self x xs)
    have hxs : c ∉ xs := fun m => h (List.mem_cons_of_mem x m)
    simp [splitOnFirst, hx, ih hxs]

theorem cutTail_not_mem {c : Char} {l : PyStr} (h : c ∉ l) : cutTail c l = (l, []) := by
  simp [cutTail, splitOnFirst_not_mem h]

theorem cutTail_append {c : Char} {a : PyStr} (b : PyStr) (h : c ∉ a) :
    cutTail c (a ++ c :: b) = (a, b) := by
  simp [cutTail, splitOnFirst_append b h]

theorem takeWhile_append_stop {p : Char → Bool} {a b : PyStr}
    (ha : ∀ x ∈ a, p x = true)
    (hb : b = [] ∨ ∃ y ys, b = y :: ys ∧ p y = false) :
    (a ++ b).takeWhile p = a ∧ (a ++ b).dropWhile p = b := by
  induction a with
  | nil =>
    rcases hb with rfl | ⟨y, ys, rfl, hy⟩
    · simp
    · simp [List.takeWhile_cons, List.dropWhile_cons, hy]
  | cons x xs ih =>
    have hx : p x = true := ha x (List.mem_cons_self x xs)
    have ih' := ih (fun z hz => ha z (List.mem_cons_of_mem x hz))
    simp [List.takeWhile_cons, List.dropWhile_cons, hx, ih'.1, ih'.2]

theorem rstripChar_id {c : Char} {l : PyStr} (h : l.getLast? ≠ some c) :
    rstripChar c l = l := by
  unfold rstripChar
  cases hr : l.reverse with
  | nil =>
    have : l = [] := by simpa using congrArg List.reverse hr
    simp [this]
  | cons y ys =>
    have hy : y ≠ c := by
      intro e
      apply h
      rw [← List.head?_reverse, hr, e]
      rfl
    rw [List.dropWhile_cons, if_neg (by simp [hy])]
    rw [← hr, List.reverse_reverse]

theorem contains_eq_mem (l : PyStr) (c : Char) : l.contains c = decide (c ∈ l) := by
  induction l with
  | nil => rfl
  | cons x xs ih => simp [List.contains_cons, ih]

theorem map_toLower_id {l : PyStr} (h : ∀ c ∈ l, c.isUpper = false) :
    l.map Char.toLower = l := by
  induction l with
  | nil => rfl
  | cons x xs ih =>
    have hx : x.isUpper = false := h x (List.mem_cons_self x xs)
    have hxl : x.toLower = x := by
      have : ¬('A' ≤ x ∧ x ≤ 'Z') := by
        intro hc
        have : x.isUpper = true := by
          simp [Char.isUpper]
          exact ⟨hc.1, hc.2⟩
        simp [this] at hx
      simp only [Char.toLower]
      rw [if_neg]
      intro hc
      exact this ⟨by exact Char.le_def.mpr (by exact_mod_cast hc.1), Char.le_def.mpr (by exact_mod_cast hc.2)⟩
    simp [hxl, ih (fun z hz => h z (List.mem_cons_of_mem x hz))]

/-! ## Claim C5 — scheme-detection lemmas -/

theorem schemeChar_ne_colon {c : Char} (h : schemeChar c = true) : c ≠ ':' := by
  intro e
  subst e
  simp [schemeChar] at h

theorem colonAfter_split_not_all {l a b : PyStr}
    (h : colonAfterSchemeChars l = false)
    (hs : splitOnFirst ':' l = (a, some b)) : a.all schemeChar = false := by
  induction l generalizing a b with
  | nil => simp [splitOnFirst] at hs
  | cons x xs ih =>
    by_cases hx : x = ':'
    · subst hx
      simp [colonAfterSchemeChars] at h
    · rw [show splitOnFirst ':' (x :: xs)
          = (x :: (splitOnFirst ':' xs).1, (splitOnFirst ':' xs).2) by
        simp [splitOnFirst, hx]] at hs
      obtain ⟨rfl, h2⟩ := Prod.mk.injEq _ _ _ _ ▸ hs
      simp only [colonAfterSchemeChars, if_neg hx, Bool.and_eq_false_iff] at h
      rcases h with h | h
      · simp [List.all_cons, h]
      · cases hsx : (splitOnFirst ':' xs).2 with
        | none => rw [hsx] at h2; cases h2
        | some b' =>
          rw [hsx] at h2
          cases h2
          have := ih h (by rw [← hsx])
          simp [List.all_cons, this]

theorem colonAfter_append_delim {a : PyStr} {c : Char} (b : PyStr)
    (h1 : colonAfterSchemeChars a = false)
    (hc1 : schemeChar c = false) (hc2 : c ≠ ':') :
    colonAfterSchemeChars (a ++ c :: b) = false := by
  induction a with
  | nil => simp [colonAfterSchemeChars, hc2, hc1]
  | cons x xs ih =>
    by_cases hx : x = ':'
    · subst hx; simp [colonAfterSchemeChars] at h1
    · simp only [colonAfterSchemeChars, if_neg hx, Bool.and_eq_false_iff] at h1 ⊢
      rcases h1 with h1 | h1
      · exact Or.inl h1
      · exact Or.inr (ih h1)

theorem colonAfter_append_cases {a rest : PyStr}
    (h1 : colonAfterSchemeChars a = false)
    (hr : rest = [] ∨ ∃ d tl, rest = d :: tl ∧ schemeChar d = false ∧ d ≠ ':') :
    colonAfterSchemeChars (a ++ rest) = false := by
  rcases hr with rfl | ⟨d, tl, rfl, hd1, hd2⟩
  · simpa using h1
  · exact colonAfter_append_delim tl h1 hd1 hd2

theorem splitScheme_no_detect {l : PyStr} (h : schemeLike l = false) :
    splitScheme l = ([], l) := by
  cases l with
  | nil => rfl
  | cons x xs =>
    simp only [schemeLike, Bool.and_eq_false_iff] at h
    by_cases hx : x = ':'
    · subst hx
      simp [splitScheme, splitOnFirst]
    · rw [splitScheme, show splitOnFirst ':' (x :: xs)
          = (x :: (splitOnFirst ':' xs).1, (splitOnFirst ':' xs).2) by
        simp [splitOnFirst, hx]]
      cases hsx : (splitOnFirst ':' xs).2 with
      | none => simp
      | some b =>
        rcases h with h | h
        · simp [h]
        · have hall : (splitOnFirst ':' xs).1.all schemeChar = false :=
            colonAfter_split_not_all h (by rw [← hsx])
          simp [List.all_cons, hall]

theorem splitScheme_detect {x : Char} {xs rest : PyStr}
    (ha : x.isAlpha = true) (hall : (x :: xs).all schemeChar = true) :
    splitScheme ((x :: xs) ++ ':' :: rest) = ((x :: xs).map Char.toLower, rest) := by
  have hnc : ':' ∉ (x :: xs) := by
    intro hm
    have := List.all_eq_true.mp hall ':' hm
    simp [schemeChar] at this
  rw [splitScheme, splitOnFirst_append rest hnc]
  simp [ha, hall]

/-! ## Claim C5 — netloc, fragment/query and params lemmas -/

theorem netlocStep_slashes {n rest : PyStr}
    (hn : ∀ c ∈ n, netlocDelim c = false)
    (hr : rest = [] ∨ ∃ y ys, rest = y :: ys ∧ netlocDelim y = true) :
    netlocStep ('/' :: '/' :: (n ++ rest)) = (n, rest) := by
  have := takeWhile_append_stop (p := fun c => !netlocDelim c)
    (a := n) (b := rest)
    (fun z hz => by simp [hn z hz])
    (by rcases hr with rfl | ⟨y, ys, rfl, hy⟩
        · exact Or.inl rfl
        · exact Or.inr ⟨y, ys, rfl, by simp [hy]⟩)
  simp [netlocStep, this.1, this.2]

theorem netlocStep_other {url : PyStr} (h : url.take 2 ≠ ['/', '/']) :
    netlocStep url = ([], url) := by
  unfold netlocStep
  split
  · exact absurd rfl h
  · rfl

theorem fragQuery_recover {X Q F : PyStr}
    (hx1 : '#' ∉ X) (hx2 : '?' ∉ X) (hq : '#' ∉ Q) :
    cutTail '#' (X ++ ((if Q.isEmpty then [] else '?' :: Q) ++ (if F.isEmpty then [] else '#' :: F)))
      = (X ++ (if Q.isEmpty then [] else '?' :: Q), F) ∧
    cutTail '?' (X ++ (if Q.isEmpty then [] else '?' :: Q)) = (X, Q) := by
  constructor
  · by_cases hF : F.isEmpty
    · have : F = [] := List.isEmpty_iff.mp hF
      subst this
      simp only [hF, if_pos, List.append_nil]
      by_cases hQ : Q.isEmpty
      · have : Q = [] := List.isEmpty_iff.mp hQ
        subst this
        simp only [List.isEmpty_nil, if_pos, List.append_nil]
        exact cutTail_not_mem hx1
      · simp only [hQ, if_neg, Bool.not_eq_true]
        apply cutTail_not_mem
        intro hm
        rcases List.mem_append.mp hm with hm | hm
        · exact hx1 hm
        · rcases List.mem_cons.mp hm with hm | hm
          · cases hm
          · exact hq hm
    · have hFne : ¬F.isEmpty = true := hF
      simp only [hFne, if_neg, Bool.not_eq_true]
      rw [← List.append_assoc]
      apply cutTail_append
      intro hm
      rcases List.mem_append.mp hm with hm | hm
      · exact hx1 hm
      · by_cases hQ : Q.isEmpty
        · simp [hQ] at hm
        · simp only [hQ, if_neg, Bool.not_eq_true] at hm
          rcases List.mem_cons.mp hm with hm | hm
          · cases hm
          · exact hq hm
  · by_cases hQ : Q.isEmpty
    · have : Q = [] := List.isEmpty_iff.mp hQ
      subst this
      simp only [List.isEmpty_nil, if_pos, List.append_nil]
      exact cutTail_not_mem hx2
    · simp only [hQ, if_neg, Bool.not_eq_true]
      exact cutTail_append Q hx2

theorem splitparams_with_slash {A B par : PyStr}
    (hB1 : '/' ∉ B) (hB2 : ';' ∉ B) (hpar : '/' ∉ par) :
    splitparams ((A ++ '/' :: B) ++ ';' :: par) = (A ++ '/' :: B, par) := by
  have hmem : '/' ∉ par.reverse ++ ';' :: B.reverse := by
    intro hm
    rcases List.mem_append.mp hm with hm | hm
    · exact hpar (List.mem_reverse.mp hm)
    · rcases List.mem_cons.mp hm with hm | hm
      · cases hm
      · exact hB1 (List.mem_reverse.mp hm)
  have h1 := splitOnFirst_append (c := '/') (a := par.reverse ++ ';' :: B.reverse)
    A.reverse hmem
  have h2 : splitOnFirst ';' (B ++ ';' :: par) = (B, some par) :=
    splitOnFirst_append _ hB2
  simp at h1
  simp [splitparams, h1, h2]

theorem splitparams_no_slash {P par : PyStr}
    (hP1 : '/' ∉ P) (hP2 : ';' ∉ P) (hpar : '/' ∉ par) :
    splitparams (P ++ ';' :: par) = (P, par) := by
  have hmem : '/' ∉ par.reverse ++ ';' :: P.reverse := by
    intro hm
    rcases List.mem_append.mp hm with hm | hm
    · exact hpar (List.mem_reverse.mp hm)
    · rcases List.mem_cons.mp hm with hm | hm
      · cases hm
      · exact hP1 (List.mem_reverse.mp hm)
  have h1 := splitOnFirst_not_mem hmem
  have h2 : splitOnFirst ';' (P ++ ';' :: par) = (P, some par) :=
    splitOnFirst_append _ hP2
  simp [splitparams, h1, h2]

theorem splitparams_no_semi_in_seg {A B : PyStr}
    (hB1 : '/' ∉ B) (hB2 : ';' ∉ B) :
    splitparams (A ++ '/' :: B) = (A ++ '/' :: B, []) := by
  have hmem : '/' ∉ B.reverse := fun hm => hB1 (List.mem_reverse.mp hm)
  have h1 := splitOnFirst_append (c := '/') (a := B.reverse) A.reverse hmem
  have h2 : splitOnFirst ';' B = (B, none) := splitOnFirst_not_mem hB2
  simp at h1
  simp [splitparams, h1, h2]

theorem lastSegment_no_slash (l : PyStr) : '/' ∉ lastSegment l := by
  intro hm
  have := List.mem_takeWhile_imp (List.mem_reverse.mp hm)
  simp at this

theorem lastSegment_of_no_slash {l : PyStr} (h : '/' ∉ l) : lastSegment l = l := by
  unfold lastSegment
  rw [List.takeWhile_eq_self_iff.mpr, List.reverse_reverse]
  intro x hx
  have : x ∈ l := List.mem_reverse.mp hx
  simp
  intro e
  exact h (e ▸ this)

theorem splitOnFirst_eq_some {c : Char} {l a b : PyStr}
    (h : splitOnFirst c l = (a, some b)) : l = a ++ c :: b ∧ c ∉ a := by
  induction l generalizing a b with
  | nil => simp [splitOnFirst] at h
  | cons x xs ih =>
    by_cases hx : x = c
    · subst hx
      simp [splitOnFirst] at h
      obtain ⟨rfl, rfl⟩ := h
      simp
    · rw [show splitOnFirst c (x :: xs)
          = (x :: (splitOnFirst c xs).1, (splitOnFirst c xs).2) by
        simp [splitOnFirst, hx]] at h
      obtain ⟨rfl, h2⟩ := Prod.mk.injEq _ _ _ _ ▸ h
      cases hsx : (splitOnFirst c xs).2 with
      | none => rw [hsx] at h2; cases h2
      | some b' =>
        rw [hsx] at h2
        cases h2
        obtain ⟨he, hm⟩ := ih (by rw [← hsx])
        constructor
        · rw [List.cons_append, ← he]
        · intro hmem
          rcases List.mem_cons.mp hmem with hmem | hmem
          · exact hx hmem.symm
          · exact hm hmem

theorem splitOnFirst_mem {c : Char} {l : PyStr} (h : c ∈ l) :
    ∃ a b, splitOnFirst c l = (a, some b) := by
  induction l with
  | nil => cases h
  | cons x xs ih =>
    by_cases hx : x = c
    · subst hx
      exact ⟨[], xs, by simp [splitOnFirst]⟩
    · have hxs : c ∈ xs := by
        rcases List.mem_cons.mp h with hm | hm
        · exact absurd hm.symm hx
        · exact hm
      obtain ⟨a, b, hab⟩ := ih hxs
      exact ⟨x :: a, b, by simp [splitOnFirst, hx, hab]⟩

theorem splitOnFirst_fst (c : Char) (l : PyStr) :
    (splitOnFirst c l).1 = l.takeWhile (· ≠ c) := by
  induction l with
  | nil => rfl
  | cons x xs ih =>
    by_cases hx : x = c
    · subst hx
      simp [splitOnFirst, List.takeWhile_cons]
    · simp [splitOnFirst, List.takeWhile_cons, hx, ih]

theorem exists_last_slash {l : PyStr} (h : '/' ∈ l) :
    ∃ A, l = A ++ '/' :: lastSegment l := by
  obtain ⟨a, b, hsp⟩ := splitOnFirst_mem (List.mem_reverse.mpr h)
  obtain ⟨heq, _⟩ := splitOnFirst_eq_some hsp
  have hseg : lastSegment l = a.reverse := by
    unfold lastSegment
    rw [← splitOnFirst_fst, hsp]
  refine ⟨b.reverse, ?_⟩
  rw [hseg]
  calc l = l.reverse.reverse := by rw [List.reverse_reverse]
    _ = (a ++ '/' :: b).reverse := by rw [← heq]
    _ = b.reverse ++ '/' :: a.reverse := by simp

/-! ## Claim C5 — composite stage lemmas -/

/-- `urlunsplit` written as one concatenation. -/
theorem pyUrlunsplit_eq (scheme netloc url query fragment : PyStr) :
    pyUrlunsplit scheme netloc url query fragment =
      (if scheme.isEmpty then [] else scheme ++ [':']) ++
      ((if !netloc.isEmpty || url.take 2 = ['/', '/'] then
          '/' :: '/' :: (netloc ++ (if !url.isEmpty && url.head? ≠ some '/' then '/' :: url else url))
        else url) ++
       ((if query.isEmpty then [] else '?' :: query) ++
        (if fragment.isEmpty then [] else '#' :: fragment))) := by
  unfold pyUrlunsplit
  by_cases h1 : !netloc.isEmpty || url.take 2 = ['/', '/'] <;>
    by_cases h2 : scheme.isEmpty <;>
      by_cases h3 : query.isEmpty <;>
        by_cases h4 : fragment.isEmpty <;>
          simp [h1, h2, h3, h4]

theorem take2_ne_slashes {X rest : PyStr}
    (hX : X.take 2 ≠ ['/', '/'])
    (h1 : X = [] → ¬∃ ys, rest = '/' :: ys)
    (h2 : ∀ c, X = [c] → c ≠ '/') :
    (X ++ rest).take 2 ≠ ['/', '/'] := by
  match X with
  | [] =>
    intro hc
    cases rest with
    | nil => simp at hc
    | cons y ys =>
      simp [List.take] at hc
      exact h1 rfl ⟨_, by rw [hc.1]⟩
  | [c] =>
    intro hc
    simp [List.take] at hc
    exact h2 c rfl hc.1
  | c1 :: c2 :: tl =>
    intro hc
    simp [List.take] at hc
    exact hX (by simp [List.take, hc.1, hc.2])

/-- The full `urlsplit` pipeline recovers the components from the
reassembled string, given the scheme/netloc-stage hypotheses. -/
theorem pyUrlsplit_recover {s n X url1 q f : PyStr}
    (hs : s = [] ∨ (∃ x xs, s = x :: xs ∧ x.isAlpha = true ∧ s.all schemeChar = true
        ∧ s.map Char.toLower = s))
    (hsl : s = [] → schemeLike (url1 ++ ((if q.isEmpty then [] else '?' :: q) ++
        (if f.isEmpty then [] else '#' :: f))) = false)
    (hnet : netlocStep (url1 ++ ((if q.isEmpty then [] else '?' :: q) ++
        (if f.isEmpty then [] else '#' :: f)))
      = (n, X ++ ((if q.isEmpty then [] else '?' :: q) ++
        (if f.isEmpty then [] else '#' :: f))))
    (hX1 : '#' ∉ X) (hX2 : '?' ∉ X) (hq : '#' ∉ q) :
    pyUrlsplit ((if s.isEmpty then [] else s ++ [':']) ++
        (url1 ++ ((if q.isEmpty then [] else '?' :: q) ++
          (if f.isEmpty then [] else '#' :: f))))
      = (s, n, X, q, f) := by
  have hsch : splitScheme ((if s.isEmpty then [] else s ++ [':']) ++
      (url1 ++ ((if q.isEmpty then [] else '?' :: q) ++
        (if f.isEmpty then [] else '#' :: f))))
      = (s, url1 ++ ((if q.isEmpty then [] else '?' :: q) ++
        (if f.isEmpty then [] else '#' :: f))) := by
    rcases hs with rfl | ⟨x, xs, rfl, hA, hall, hlow⟩
    · simpa using splitScheme_no_detect (hsl rfl)
    · have := @splitScheme_detect x xs (url1 ++ ((if q.isEmpty then [] else '?' :: q) ++
          (if f.isEmpty then [] else '#' :: f))) hA hall
      simp only [List.isEmpty_cons, if_neg, Bool.false_eq_true, not_false_iff]
      rw [show (x :: xs) ++ [':'] ++ (url1 ++ ((if q.isEmpty then [] else '?' :: q) ++
          (if f.isEmpty then [] else '#' :: f)))
        = (x :: xs) ++ ':' :: (url1 ++ ((if q.isEmpty then [] else '?' :: q) ++
          (if f.isEmpty then [] else '#' :: f))) by simp]
      rw [this, hlow]
  obtain ⟨hfq1, hfq2⟩ := fragQuery_recover (X := X) (Q := q) (F := f) hX1 hX2 hq
  simp only [List.isEmpty_iff] at hsch hnet hfq1 hfq2
  simp [pyUrlsplit, hsch, hnet, hfq1, hfq2]

/-! ## Claim C5 — final stage lemmas -/

theorem schemeLike_cons_not_alpha {c : Char} (rest : PyStr) (h : c.isAlpha = false) :
    schemeLike (c :: rest) = false := by
  simp [schemeLike, h]

/-- The query/fragment suffix is empty or starts with `?` or `#`. -/
theorem qf_shape (q f : PyStr) :
    ((if q.isEmpty then [] else '?' :: q) ++ (if f.isEmpty then [] else '#' :: f)) = [] ∨
    ∃ d tl, ((if q.isEmpty then [] else '?' :: q) ++
        (if f.isEmpty then [] else '#' :: f)) = d :: tl ∧ (d = '?' ∨ d = '#') := by
  by_cases hq : q.isEmpty
  · by_cases hf : f.isEmpty
    · left; simp [hq, hf]
    · right; exact ⟨'#', f, by simp [hq, hf], Or.inr rfl⟩
  · right; exact ⟨'?', q ++ (if f.isEmpty then [] else '#' :: f), by simp [hq], Or.inl rfl⟩

/-- The params-split stage recovers path and params from their plain
concatenation. -/
theorem paramsStage_plain {s p par : PyStr}
    (hparS : '/' ∉ par)
    (huses : par ≠ [] → usesParams s = true)
    (hseg : usesParams s = true → ';' ∉ lastSegment p) :
    (if usesParams s && (if par.isEmpty then p else p ++ ';' :: par).contains ';'
     then splitparams (if par.isEmpty then p else p ++ ';' :: par)
     else ((if par.isEmpty then p else p ++ ';' :: par), [])) = (p, par) := by
  by_cases hpar0 : par.isEmpty
  · have hpnil : par = [] := List.isEmpty_iff.mp hpar0
    subst hpnil
    simp only [List.isEmpty_nil, if_pos]
    by_cases hg : (usesParams s && p.contains ';') = true
    · rw [Bool.and_eq_true] at hg
      obtain ⟨huses', hsemi'⟩ := hg
      have hg : (usesParams s && p.contains ';') = true := by
        rw [Bool.and_eq_true]
        exact ⟨huses', hsemi'⟩
      have hsemi : ';' ∈ p := by
        rw [contains_eq_mem] at hsemi'
        simpa using hsemi'
      have hnoseg : ';' ∉ lastSegment p := hseg huses'
      by_cases hslash : '/' ∈ p
      · obtain ⟨A, hA⟩ := exists_last_slash hslash
        rw [if_pos hg, hA,
          splitparams_no_semi_in_seg (lastSegment_no_slash p) hnoseg]
      · exact absurd (by rw [lastSegment_of_no_slash hslash]; exact hsemi) hnoseg
    · rw [if_neg hg]
  · have hparne : par ≠ [] := fun e => hpar0 (by simp [e])
    have huses' := huses hparne
    simp only [hpar0, if_neg, Bool.not_eq_true]
    have hg : (usesParams s && (p ++ ';' :: par).contains ';') = true := by
      rw [huses', contains_eq_mem]
      simp
    rw [if_pos hg]
    by_cases hslash : '/' ∈ p
    · obtain ⟨A, hA⟩ := exists_last_slash hslash
      have hnoseg : ';' ∉ lastSegment p := hseg huses'
      have hB1 : '/' ∉ lastSegment p := lastSegment_no_slash p
      revert hA
      generalize lastSegment p = B at hnoseg hB1
      intro hA
      rw [hA]
      exact splitparams_with_slash hB1 hnoseg hparS
    · have hnosemi : ';' ∉ p := by
        have := hseg huses'
        rwa [lastSegment_of_no_slash hslash] at this
      exact splitparams_no_slash hslash hnosemi hparS

/-- `URL.parse` in terms of the `urlsplit` result. -/
theorem URL_parse_decomp {u s n X q f : PyStr}
    (hsplit : pyUrlsplit u = (s, n, X, q, f)) :
    URL.parse u = ⟨s, n,
      rstripChar '/' (if usesParams s && X.contains ';' then splitparams X else (X, [])).1,
      (if usesParams s && X.contains ';' then splitparams X else (X, [])).2, q, f⟩ := by
  simp [URL.parse, pyUrlparse, hsplit]

/-! ## Claim C5 — the round trip -/

/-- C5: for every valid endpoint, re-parsing the reconstructed URL
string yields the same components (no scheme override, no extra
endpoint segments). -/
theorem C5_parse_unparse (e : URL) (h : e.valid = true) :
    URL.parse (URL.unparse e EndpointArg.none Option.none) = e := by
  obtain ⟨s, n, p, par, q, f⟩ := e
  simp only [URL.valid, Bool.and_eq_true] at h
  obtain ⟨⟨⟨⟨⟨⟨⟨⟨⟨⟨⟨⟨⟨⟨h1, h2⟩, h3⟩, h4⟩, h5⟩, h6⟩, h7⟩, h8⟩, h9⟩, h10⟩, h11⟩,
    h12⟩, h13⟩, _h14⟩, _h15⟩ := h
  have hpQ : '?' ∉ p := by rw [contains_eq_mem] at h3 ; simpa using h3
  have hpH : '#' ∉ p := by rw [contains_eq_mem] at h4 ; simpa using h4
  have hplast : p.getLast? ≠ some '/' := by simpa using h5
  have hnall : ∀ c ∈ n, netlocDelim c = false := by
    intro c hc
    have hx := List.all_eq_true.mp h2 c hc
    simp only [Bool.and_eq_true] at hx
    simpa using hx.1.1.1
  have habs : n ≠ [] → p = [] ∨ p.head? = some '/' := by
    intro hne
    have h6' : (n = [] ∨ p = []) ∨ p.head? = some '/' := by simpa using h6
    rcases h6' with (h6' | h6') | h6'
    · exact absurd h6' hne
    · exact Or.inl h6'
    · exact Or.inr h6'
  have hml : s = [] → n = [] → schemeLike p = false := by
    intro hs0 hn0
    cases hsl : schemeLike p with
    | false => rfl
    | true => rw [hs0, hn0, hsl] at h7 ; simp at h7
  have hparS : '/' ∉ par := by rw [contains_eq_mem] at h8 ; simpa using h8
  have hparQ : '?' ∉ par := by rw [contains_eq_mem] at h9 ; simpa using h9
  have hparH : '#' ∉ par := by rw [contains_eq_mem] at h10 ; simpa using h10
  have huses : par ≠ [] → usesParams s = true := by
    intro hne
    have h11' : par = [] ∨ usesParams s = true := by simpa using h11
    rcases h11' with h11' | h11'
    · exact absurd h11' hne
    · exact h11'
  have hseg : usesParams s = true → ';' ∉ lastSegment p := by
    intro hu
    have h12' : usesParams s = false ∨ ';' ∉ lastSegment p := by
      simpa [contains_eq_mem] using h12
    rcases h12' with h12' | h12'
    · rw [hu] at h12' ; cases h12'
    · exact h12'
  have hqH : '#' ∉ q := by rw [contains_eq_mem] at h13 ; simpa using h13
  have hs : s = [] ∨ (∃ x xs, s = x :: xs ∧ x.isAlpha = true ∧ s.all schemeChar = true
      ∧ s.map Char.toLower = s) := by
    cases hsc : s with
    | nil => exact Or.inl rfl
    | cons x xs =>
      right
      rw [hsc] at h1
      simp only [List.isEmpty_cons, Bool.false_or] at h1
      rw [Bool.and_eq_true] at h1
      obtain ⟨hA, hall⟩ := h1
      have hall1 : (x :: xs).all schemeChar = true := by
        rw [List.all_eq_true] at hall ⊢
        intro d hd
        have := hall d hd
        rw [Bool.and_eq_true] at this
        exact this.1
      have hlow : (x :: xs).map Char.toLower = x :: xs := by
        apply map_toLower_id
        intro d hd
        rw [List.all_eq_true] at hall
        have := hall d hd
        rw [Bool.and_eq_true] at this
        simpa using this.2
      exact ⟨x, xs, rfl, hA, hall1, hlow⟩
  have hqfhead : ¬∃ ys,
      ((if q.isEmpty then [] else '?' :: q) ++ (if f.isEmpty then [] else '#' :: f))
        = '/' :: ys := by
    rintro ⟨ys, hys⟩
    rcases qf_shape q f with hqf | ⟨d, tl, hqf, hd⟩
    · rw [hqf] at hys ; cases hys
    · rw [hqf] at hys
      rcases hd with rfl | rfl <;> cases hys
  have hqfdelim :
      ((if q.isEmpty then [] else '?' :: q) ++ (if f.isEmpty then [] else '#' :: f)) = [] ∨
      ∃ y ys, ((if q.isEmpty then [] else '?' :: q) ++ (if f.isEmpty then [] else '#' :: f))
        = y :: ys ∧ netlocDelim y = true := by
    rcases qf_shape q f with hqf | ⟨d, tl, hqf, hd⟩
    · exact Or.inl hqf
    · refine Or.inr ⟨d, tl, hqf, ?_⟩
      rcases hd with rfl | rfl <;> rfl
  have hqfsch :
      ((if q.isEmpty then [] else '?' :: q) ++ (if f.isEmpty then [] else '#' :: f)) = [] ∨
      ∃ d tl, ((if q.isEmpty then [] else '?' :: q) ++ (if f.isEmpty then [] else '#' :: f))
        = d :: tl ∧ schemeChar d = false ∧ d ≠ ':' := by
    rcases qf_shape q f with hqf | ⟨d, tl, hqf, hd⟩
    · exact Or.inl hqf
    · refine Or.inr ⟨d, tl, hqf, ?_⟩
      rcases hd with rfl | rfl <;> exact ⟨by decide, by decide⟩
  have hunp : URL.unparse ⟨s, n, p, par, q, f⟩ EndpointArg.none Option.none
      = pyUrlunsplit s n (if !par.isEmpty then p ++ ';' :: par else p) q f := rfl
  rw [hunp, pyUrlunsplit_eq]
  by_cases hparE : par = []
  · subst hparE
    rw [show (if !List.isEmpty ([] : PyStr) then p ++ ';' :: [] else p) = p from rfl]
    have hps : (if usesParams s && p.contains ';' then splitparams p else (p, []))
        = (p, []) := by
      simpa using @paramsStage_plain s p [] hparS huses hseg
    by_cases hnb : (!n.isEmpty || p.take 2 = ['/', '/']) = true
    · -- the `//netloc` branch of urlunsplit
      have hhead : p = [] ∨ p.head? = some '/' := by
        have hnb' : (!n.isEmpty) = true ∨ p.take 2 = ['/', '/'] := by simpa using hnb
        rcases hnb' with hb | hb
        · exact habs (by simpa using hb)
        · right
          cases p with
          | nil => simp at hb
          | cons c cs =>
            have hc : c = '/' := by
              cases cs with
              | nil => simp [List.take] at hb
              | cons c2 cs2 => simp [List.take] at hb ; exact hb.1
            simp [hc]
      have hC' : (if !p.isEmpty && p.head? ≠ some '/' then '/' :: p else p) = p := by
        rcases hhead with rfl | hh
        · rfl
        · simp [hh]
      rw [if_pos hnb, hC']
      have hnet : netlocStep (('/' :: '/' :: (n ++ p)) ++
          ((if q.isEmpty then [] else '?' :: q) ++ (if f.isEmpty then [] else '#' :: f)))
          = (n, p ++ ((if q.isEmpty then [] else '?' :: q) ++
              (if f.isEmpty then [] else '#' :: f))) := by
        rw [show ('/' :: '/' :: (n ++ p)) ++
            ((if q.isEmpty then [] else '?' :: q) ++ (if f.isEmpty then [] else '#' :: f))
            = '/' :: '/' :: (n ++ (p ++ ((if q.isEmpty then [] else '?' :: q) ++
              (if f.isEmpty then [] else '#' :: f)))) by simp]
        apply netlocStep_slashes hnall
        rcases hhead with rfl | hh
        · simpa using hqfdelim
        · cases p with
          | nil => simp at hh
          | cons c cs =>
            have hc : c = '/' := by simpa using hh
            exact Or.inr ⟨c, cs ++ _, rfl, by simp [hc, netlocDelim]⟩
      have hsl : s = [] → schemeLike (('/' :: '/' :: (n ++ p)) ++
          ((if q.isEmpty then [] else '?' :: q) ++
            (if f.isEmpty then [] else '#' :: f))) = false := by
        intro _
        exact schemeLike_cons_not_alpha _ (by decide)
      have hsplit := pyUrlsplit_recover hs hsl hnet hpH hpQ hqH
      rw [URL_parse_decomp hsplit, hps, rstripChar_id hplast]
    · -- no netloc, no leading //
      have hnb' : n = [] ∧ p.take 2 ≠ ['/', '/'] := by
        constructor
        · by_contra hnn
          exact hnb (by simp [List.isEmpty_iff, hnn])
        · intro ht
          exact hnb (by simp [ht])
      obtain ⟨rfl, ht2⟩ := hnb'
      rw [if_neg hnb]
      have hnet : netlocStep (p ++
          ((if q.isEmpty then [] else '?' :: q) ++ (if f.isEmpty then [] else '#' :: f)))
          = ([], p ++ ((if q.isEmpty then [] else '?' :: q) ++
              (if f.isEmpty then [] else '#' :: f))) := by
        apply netlocStep_other
        apply take2_ne_slashes ht2
        · intro _
          exact hqfhead
        · intro c hc
          intro hcs
          apply hplast
          rw [hc, hcs]
          rfl
      have hsl : s = [] → schemeLike (p ++
          ((if q.isEmpty then [] else '?' :: q) ++
            (if f.isEmpty then [] else '#' :: f))) = false := by
        intro hs0
        have hpl : schemeLike p = false := hml hs0 rfl
        cases p with
        | nil =>
          rw [List.nil_append]
          rcases qf_shape q f with hqf | ⟨d, tl, hqf, hd⟩
          · rw [hqf] ; rfl
          · rw [hqf]
            apply schemeLike_cons_not_alpha
            rcases hd with rfl | rfl <;> decide
        | cons c cs =>
          rw [List.cons_append]
          simp only [schemeLike, Bool.and_eq_false_iff] at hpl ⊢
          rcases hpl with hpl | hpl
          · exact Or.inl hpl
          · exact Or.inr (colonAfter_append_cases hpl hqfsch)
      have hsplit := pyUrlsplit_recover hs hsl hnet hpH hpQ hqH
      rw [URL_parse_decomp hsplit, hps, rstripChar_id hplast]
  · -- par ≠ []
    have hparne : par ≠ [] := hparE
    have hCeq : (if !par.isEmpty then p ++ ';' :: par else p) = p ++ ';' :: par := by
      simp [List.isEmpty_iff, hparE]
    rw [hCeq]
    have hps : (if usesParams s && (p ++ ';' :: par).contains ';'
        then splitparams (p ++ ';' :: par) else (p ++ ';' :: par, []))
        = (p, par) := by
      have := @paramsStage_plain s p par hparS huses hseg
      simpa [List.isEmpty_iff, hparE] using this
    have hXH : '#' ∉ p ++ ';' :: par := by
      intro hm
      rcases List.mem_append.mp hm with hm | hm
      · exact hpH hm
      · rcases List.mem_cons.mp hm with hm | hm
        · cases hm
        · exact hparH hm
    have hXQ : '?' ∉ p ++ ';' :: par := by
      intro hm
      rcases List.mem_append.mp hm with hm | hm
      · exact hpQ hm
      · rcases List.mem_cons.mp hm with hm | hm
        · cases hm
        · exact hparQ hm
    by_cases hnb : (!n.isEmpty || (p ++ ';' :: par).take 2 = ['/', '/']) = true
    · -- the `//netloc` branch of urlunsplit
      by_cases hpnil : p = []
      · subst hpnil
        simp only [List.nil_append] at hnb hps hXH hXQ ⊢
        rw [if_pos hnb]
        rw [show (if !(';' :: par).isEmpty && (';' :: par).head? ≠ some '/'
            then '/' :: ';' :: par else ';' :: par) = '/' :: ';' :: par by rfl]
        have hnet : netlocStep (('/' :: '/' :: (n ++ ('/' :: ';' :: par))) ++
            ((if q.isEmpty then [] else '?' :: q) ++ (if f.isEmpty then [] else '#' :: f)))
            = (n, ('/' :: ';' :: par) ++ ((if q.isEmpty then [] else '?' :: q) ++
                (if f.isEmpty then [] else '#' :: f))) := by
          rw [show ('/' :: '/' :: (n ++ ('/' :: ';' :: par))) ++
              ((if q.isEmpty then [] else '?' :: q) ++ (if f.isEmpty then [] else '#' :: f))
              = '/' :: '/' :: (n ++ (('/' :: ';' :: par) ++
                ((if q.isEmpty then [] else '?' :: q) ++
                  (if f.isEmpty then [] else '#' :: f)))) by simp]
          apply netlocStep_slashes hnall
          exact Or.inr ⟨'/', _, rfl, rfl⟩
        have hsl : s = [] → schemeLike (('/' :: '/' :: (n ++ ('/' :: ';' :: par))) ++
            ((if q.isEmpty then [] else '?' :: q) ++
              (if f.isEmpty then [] else '#' :: f))) = false := by
          intro _
          exact schemeLike_cons_not_alpha _ (by decide)
        have hXH' : '#' ∉ '/' :: ';' :: par := by
          intro hm
          rcases List.mem_cons.mp hm with hm | hm
          · cases hm
          · exact hXH hm
        have hXQ' : '?' ∉ '/' :: ';' :: par := by
          intro hm
          rcases List.mem_cons.mp hm with hm | hm
          · cases hm
          · exact hXQ hm
        have hsplit := pyUrlsplit_recover hs hsl hnet hXH' hXQ' hqH
        rw [URL_parse_decomp hsplit]
        have hg : (usesParams s && (('/' :: ';' :: par).contains ';')) = true := by
          rw [huses hparne] ; rfl
        have hsp : splitparams ('/' :: ';' :: par) = (['/'], par) := by
          have := @splitparams_with_slash ([] : PyStr) ([] : PyStr) par
            (by simp) (by simp) hparS
          simpa using this
        rw [show (if usesParams s && (('/' :: ';' :: par).contains ';')
            then splitparams ('/' :: ';' :: par) else ('/' :: ';' :: par, []))
            = (['/'], par) by rw [if_pos hg, hsp]]
        rfl
      · -- p nonempty: its head must be a slash
        have hhd : p.head? = some '/' := by
          have hnb' : (!n.isEmpty) = true ∨ (p ++ ';' :: par).take 2 = ['/', '/'] := by
            simpa using hnb
          rcases hnb' with hb | hb
          · rcases habs (by simpa using hb) with hb' | hb'
            · exact absurd hb' hpnil
            · exact hb'
          · cases p with
            | nil => exact absurd rfl hpnil
            | cons c cs =>
              have hc : c = '/' := by
                cases cs with
                | nil => simp [List.take] at hb
                | cons c2 cs2 => simp [List.take] at hb ; exact hb.1
              simp [hc]
        have hChd : (p ++ ';' :: par).head? = some '/' := by
          cases p with
          | nil => exact absurd rfl hpnil
          | cons c cs => simpa using hhd
        rw [if_pos hnb]
        rw [show (if !(p ++ ';' :: par).isEmpty && (p ++ ';' :: par).head? ≠ some '/'
            then '/' :: (p ++ ';' :: par) else p ++ ';' :: par) = p ++ ';' :: par by
          simp [hChd]]
        have hnet : netlocStep (('/' :: '/' :: (n ++ (p ++ ';' :: par))) ++
            ((if q.isEmpty then [] else '?' :: q) ++ (if f.isEmpty then [] else '#' :: f)))
            = (n, (p ++ ';' :: par) ++ ((if q.isEmpty then [] else '?' :: q) ++
                (if f.isEmpty then [] else '#' :: f))) := by
          rw [show ('/' :: '/' :: (n ++ (p ++ ';' :: par))) ++
              ((if q.isEmpty then [] else '?' :: q) ++ (if f.isEmpty then [] else '#' :: f))
              = '/' :: '/' :: (n ++ ((p ++ ';' :: par) ++
                ((if q.isEmpty then [] else '?' :: q) ++
                  (if f.isEmpty then [] else '#' :: f)))) by simp]
          apply netlocStep_slashes hnall
          cases p with
          | nil => exact absurd rfl hpnil
          | cons c cs =>
            have hc : c = '/' := by simpa using hhd
            exact Or.inr ⟨c, _, rfl, by simp [hc, netlocDelim]⟩
        have hsl : s = [] → schemeLike (('/' :: '/' :: (n ++ (p ++ ';' :: par))) ++
            ((if q.isEmpty then [] else '?' :: q) ++
              (if f.isEmpty then [] else '#' :: f))) = false := by
          intro _
          exact schemeLike_cons_not_alpha _ (by decide)
        have hsplit := pyUrlsplit_recover hs hsl hnet hXH hXQ hqH
        rw [URL_parse_decomp hsplit, hps, rstripChar_id hplast]
    · -- no netloc, no leading //
      have hnb' : n = [] ∧ (p ++ ';' :: par).take 2 ≠ ['/', '/'] := by
        constructor
        · by_contra hnn
          exact hnb (by simp [List.isEmpty_iff, hnn])
        · intro ht
          exact hnb (by simp [ht])
      obtain ⟨rfl, ht2⟩ := hnb'
      rw [if_neg hnb]
      have hnet : netlocStep ((p ++ ';' :: par) ++
          ((if q.isEmpty then [] else '?' :: q) ++ (if f.isEmpty then [] else '#' :: f)))
          = ([], (p ++ ';' :: par) ++ ((if q.isEmpty then [] else '?' :: q) ++
              (if f.isEmpty then [] else '#' :: f))) := by
        apply netlocStep_other
        apply take2_ne_slashes ht2
        · intro hc
          exact absurd (List.append_eq_nil.mp hc).2 (by simp)
        · intro c hc _
          have hlen := congrArg List.length hc
          simp at hlen
          exact absurd (List.length_eq_zero.mp (by omega)) hparne
      have hsl : s = [] → schemeLike ((p ++ ';' :: par) ++
          ((if q.isEmpty then [] else '?' :: q) ++
            (if f.isEmpty then [] else '#' :: f))) = false := by
        intro hs0
        have hpl : schemeLike p = false := hml hs0 rfl
        cases p with
        | nil =>
          rw [List.nil_append]
          exact schemeLike_cons_not_alpha _ (by decide)
        | cons c cs =>
          rw [List.cons_append, List.cons_append, List.append_assoc, List.cons_append]
          simp only [schemeLike, Bool.and_eq_false_iff] at hpl ⊢
          rcases hpl with hpl | hpl
          · exact Or.inl hpl
          · exact Or.inr (colonAfter_append_cases hpl
              (Or.inr ⟨';', par ++ _, rfl, by decide, by decide⟩))
      have hsplit := pyUrlsplit_recover hs hsl hnet hXH hXQ hqH
      rw [URL_parse_decomp hsplit, hps, rstripChar_id hplast]

/-- C5 witness: a concrete valid endpoint round-trips. -/
theorem C5_parse_unparse_witness :
    URL.valid ⟨pys "https", pys "www.example.com", pys "/path", pys "x=1", pys "y=2", []⟩
      = true ∧
    URL.parse (URL.unparse
        ⟨pys "https", pys "www.example.com", pys "/path", pys "x=1", pys "y=2", []⟩
        EndpointArg.none Option.none)
      = ⟨pys "https", pys "www.example.com", pys "/path", pys "x=1", pys "y=2", []⟩ :=
  ⟨by decide, C5_parse_unparse _ (by decide)⟩

end NtfyApi
